import Mathlib

/-!
Verification of the Slack batch/cache utility (`src/lib/slack_batch_api.py`).

The embedding models the memory-cache variant of the `SlackBatchAPI` client
(`cache_type='memory'`): identifiers and cache keys are lists of characters,
Python dictionaries are association lists whose assignment replaces an
existing binding in place (keeping its position) and otherwise appends,
wall-clock instants (`time.time()`) and float delays are rationals, and the
remote Slack endpoints are oracles passed in as functions.  The iteration
order of a Python `set`, which depends on the interpreter's randomized
string hashing, is modelled by an explicit enumeration function `enum`
constrained only by the predicate `isSetEnum` (it lists the distinct
elements of its input, in an unspecified order).  `asyncio.gather` returns
its results in task order regardless of completion interleaving, so the
concurrent fan-outs of the source are data-equivalent to the sequential
maps used here; the semaphores bound in-flight work only and do not affect
any returned value or metric.
-/

/-- Identifiers and cache keys: Python strings, as lists of characters. -/
abbrev Ident : Type := List Char

/-- Payload of a successful `users.info` response (`response.get('user')`):
an uninterpreted value, carried through cache and result maps unchanged. -/
structure UserData where
  raw : List Char
deriving DecidableEq

/-- Values held by the client's single shared `memory_cache` dict: member
lists written by `get_conversation_members` and user payloads written by
`get_users_info`. -/
abbrev Val : Type := Sum (List Ident) UserData

/-- Python `d.get(k)` on an association list: the first binding of `k`. -/
def dget {β : Type} (d : List (Ident × β)) (k : Ident) : Option β :=
  (d.find? (fun p => decide (p.1 = k))).map (fun p => p.2)

/-- Python `d[k] = v`: replace an existing binding of `k` in place,
otherwise append the new binding at the end (dict insertion order). -/
def dset {β : Type} (d : List (Ident × β)) (k : Ident) (v : β) : List (Ident × β) :=
  if (d.find? (fun p => decide (p.1 = k))).isSome then
    d.map (fun p => if p.1 = k then (k, v) else p)
  else d ++ [(k, v)]

/-- First-some choice, for describing lookups in concatenated dicts. -/
def oOr {β : Type} : Option β → Option β → Option β
  | some v, _ => some v
  | none, o => o

theorem oOr_none_right {β : Type} (o : Option β) : oOr o none = o := by
  cases o <;> rfl

theorem dget_nil {β : Type} (k : Ident) : dget ([] : List (Ident × β)) k = none := rfl

theorem dget_cons {β : Type} (p : Ident × β) (d : List (Ident × β)) (k : Ident) :
    dget (p :: d) k = if p.1 = k then some p.2 else dget d k := by
  by_cases h : p.1 = k <;> simp [dget, List.find?, h]

theorem dget_append {β : Type} (d₁ d₂ : List (Ident × β)) (k : Ident) :
    dget (d₁ ++ d₂) k = oOr (dget d₁ k) (dget d₂ k) := by
  induction d₁ with
  | nil => simp [dget_nil, oOr]
  | cons p d ih =>
    by_cases h : p.1 = k <;> simp [dget_cons, h, oOr, ih]

theorem dget_singleton {β : Type} (k k' : Ident) (v : β) :
    dget [(k, v)] k' = if k = k' then some v else none := by
  simp [dget_cons, dget_nil]

theorem dget_eq_none_iff {β : Type} (d : List (Ident × β)) (k : Ident) :
    dget d k = none ↔ d.find? (fun p => decide (p.1 = k)) = none := by
  unfold dget
  cases d.find? (fun p => decide (p.1 = k)) <;> simp

theorem dset_absent {β : Type} (d : List (Ident × β)) (k : Ident) (v : β)
    (h : dget d k = none) : dset d k v = d ++ [(k, v)] := by
  unfold dset
  rw [(dget_eq_none_iff d k).mp h]
  rfl

theorem dget_map_replace {β : Type} (d : List (Ident × β)) (k k' : Ident) (v : β) :
    dget (d.map (fun p => if p.1 = k then (k, v) else p)) k' =
      if k = k' then (dget d k').map (fun _ => v) else dget d k' := by
  induction d with
  | nil => by_cases h : k = k' <;> simp [dget_nil, h]
  | cons p d ih =>
    by_cases hp : p.1 = k
    · simp only [List.map_cons, if_pos hp]
      by_cases hk : k = k'
      · subst hk
        rw [dget_cons, dget_cons]
        simp [hp, ih]
      · rw [dget_cons, dget_cons]
        have h1 : ¬ ((k, v).1 = k') := hk
        have h2 : ¬ (p.1 = k') := by rw [hp]; exact hk
        simp only [h1, h2, if_neg, if_false]
        simpa [hk] using ih
    · simp only [List.map_cons, if_neg hp]
      rw [dget_cons, dget_cons]
      by_cases hq : p.1 = k'
      · have hk : ¬ (k = k') := fun he => hp (he ▸ hq)
        simp [hq, hk]
      · simpa [hq] using ih

theorem dget_find_isSome_iff {β : Type} (d : List (Ident × β)) (k : Ident) :
    (d.find? (fun p => decide (p.1 = k))).isSome = (dget d k).isSome := by
  unfold dget
  cases d.find? (fun p => decide (p.1 = k)) <;> simp

theorem dget_dset_self {β : Type} (d : List (Ident × β)) (k : Ident) (v : β) :
    dget (dset d k v) k = some v := by
  unfold dset
  by_cases h : (dget d k).isSome
  · rw [if_pos (by rw [dget_find_isSome_iff]; exact h)]
    rw [dget_map_replace, if_pos rfl]
    rcases Option.isSome_iff_exists.mp h with ⟨w, hw⟩
    rw [hw]
    rfl
  · have hd : dget d k = none := Option.not_isSome_iff_eq_none.mp h
    rw [if_neg (by rw [dget_find_isSome_iff]; exact h)]
    rw [dget_append]
    simp [hd, oOr, dget_singleton]

theorem dget_dset_ne {β : Type} (d : List (Ident × β)) (k k' : Ident) (v : β)
    (h : k' ≠ k) : dget (dset d k v) k' = dget d k' := by
  unfold dset
  by_cases hs : (d.find? (fun p => decide (p.1 = k))).isSome
  · rw [if_pos hs, dget_map_replace, if_neg (fun he => h he.symm)]
  · rw [if_neg hs, dget_append, dget_singleton]
    have : ¬ (k = k') := fun hkk => h hkk.symm
    simp [this, oOr_none_right]

theorem dget_isSome_of_mem {β : Type} {d : List (Ident × β)} {p : Ident × β}
    (hp : p ∈ d) : (dget d p.1).isSome := by
  induction d with
  | nil => cases hp
  | cons q d ih =>
    rw [dget_cons]
    by_cases hq : q.1 = p.1
    · simp [hq]
    · rcases List.mem_cons.mp hp with h | h
      · exact absurd (h ▸ rfl) hq
      · simp only [if_neg hq]
        exact ih h

/-- Folding dict assignment over fresh, pairwise-distinct keys appends the
corresponding bindings in order; `kf`/`vf` extract each item's key and value. -/
theorem foldl_dset_append {β γ : Type} (kf : γ → Ident) (vf : γ → β) :
    ∀ (l : List γ) (d : List (Ident × β)),
      (l.map kf).Nodup → (∀ x ∈ l, dget d (kf x) = none) →
      l.foldl (fun d x => dset d (kf x) (vf x)) d = d ++ l.map (fun x => (kf x, vf x)) := by
  intro l
  induction l with
  | nil => intro d _ _; simp
  | cons x l ih =>
    intro d hnd habs
    have hnd' : kf x ∉ l.map kf ∧ (l.map kf).Nodup := by
      rw [List.map_cons, List.nodup_cons] at hnd; exact hnd
    have hx : dget d (kf x) = none := habs x (List.mem_cons_self x l)
    have hstep : dset d (kf x) (vf x) = d ++ [(kf x, vf x)] := dset_absent _ _ _ hx
    simp only [List.foldl_cons, hstep]
    rw [ih (d ++ [(kf x, vf x)]) hnd'.2]
    · simp
    · intro y hy
      rw [dget_append, dget_singleton]
      have hne : kf x ≠ kf y := by
        intro he
        exact hnd'.1 (he ▸ List.mem_map_of_mem kf hy)
      simp [habs y (List.mem_cons_of_mem _ hy), hne, oOr]

/-- A fold of dict assignments never touches a key not assigned by it. -/
theorem dget_foldl_dset_not_mem {β γ : Type} (kf : γ → Ident) (vf : γ → β) :
    ∀ (l : List γ) (d : List (Ident × β)) (k : Ident),
      k ∉ l.map kf →
      dget (l.foldl (fun d x => dset d (kf x) (vf x)) d) k = dget d k := by
  intro l
  induction l with
  | nil => intro d k _; rfl
  | cons x l ih =>
    intro d k hk
    simp only [List.map_cons, List.mem_cons, not_or] at hk
    simp only [List.foldl_cons]
    rw [ih _ k hk.2, dget_dset_ne _ _ _ _ hk.1]

/-- Under pairwise-distinct keys, a fold of dict assignments binds each
assigned key to the value assigned with it. -/
theorem dget_foldl_dset_mem {β γ : Type} (kf : γ → Ident) (vf : γ → β) :
    ∀ (l : List γ) (d : List (Ident × β)) (x : γ),
      (l.map kf).Nodup → x ∈ l →
      dget (l.foldl (fun d x => dset d (kf x) (vf x)) d) (kf x) = some (vf x) := by
  intro l
  induction l with
  | nil => intro d x _ hx; cases hx
  | cons y l ih =>
    intro d x hnd hx
    have hnd' : kf y ∉ l.map kf ∧ (l.map kf).Nodup := by
      rw [List.map_cons, List.nodup_cons] at hnd; exact hnd
    simp only [List.foldl_cons]
    rcases List.mem_cons.mp hx with h | h
    · subst h
      rw [dget_foldl_dset_not_mem kf vf l _ _ hnd'.1, dget_dset_self]
    · exact ih _ x hnd'.2 h

/-- Python `pat in s` (substring test), for non-empty `pat` the usual
occurrence scan; the empty pattern occurs in every string. -/
def hasOccur (pat : Ident) : Ident → Bool
  | [] => pat.isEmpty
  | c :: rest => pat.isPrefixOf (c :: rest) || hasOccur pat rest

/-- Worker for `replaceAll`, structurally recursive on a character budget
that the scan never exhausts (each step consumes at least one character). -/
def replaceAllGo (pat rep : Ident) : Nat → Ident → Ident
  | _, [] => []
  | 0, s => s
  | fuel + 1, c :: rest =>
    if pat.isPrefixOf (c :: rest) then
      rep ++ replaceAllGo pat rep fuel (rest.drop (pat.length - 1))
    else
      c :: replaceAllGo pat rep fuel rest

/-- Python `s.replace(pat, rep)`: replace every non-overlapping occurrence
of `pat`, scanning left to right.  (Python treats an empty pattern
specially; the source only ever passes the two non-empty namespace
strings.) -/
def replaceAll (pat rep s : Ident) : Ident :=
  if pat.isEmpty then s else replaceAllGo pat rep s.length s

/-- Namespace string prepended to channel ids: `"conversation_members:"`. -/
def nsConv : Ident := "conversation_members:".toList

/-- Namespace string prepended to user ids: `"user_info:"`. -/
def nsUser : Ident := "user_info:".toList

/-- Performance counters of the client (`CacheMetrics` dataclass). -/
structure CacheMetrics where
  cache_hits : Nat
  cache_misses : Nat
  api_calls : Nat
  batches_saved : Nat
deriving DecidableEq

/-- `CacheMetrics.total_requests` (a derived property). -/
def CacheMetrics.total_requests (m : CacheMetrics) : Nat :=
  m.cache_hits + m.cache_misses

/-- `CacheMetrics.cache_hit_rate`: the source formats
`cache_hits / total_requests * 100` as a two-decimal percentage string and
returns the string "0.00%" when no request was recorded; we model the
underlying numeric fraction. -/
def CacheMetrics.cache_hit_rate (m : CacheMetrics) : ℚ :=
  if m.total_requests = 0 then 0
  else (m.cache_hits : ℚ) / (m.total_requests : ℚ)

/-- Mutable state of a `SlackBatchAPI` client constructed with
`cache_type='memory'` (the Redis branch is out of scope; `self.client`,
the logger and the cleanup task handle carry no data relevant here). -/
structure ClientState where
  cache_ttl : ℚ
  batch_size : Int
  max_retries : Nat
  retry_delay : ℚ
  memory_cache : List (Ident × Val)
  cache_timestamps : List (Ident × ℚ)
  metrics : CacheMetrics
deriving DecidableEq

/-- Configuration accepted by `__init__` (the fields the core logic reads;
`token`, `cache_type` and `redis_config` do not influence the modelled
memory-cache behaviour). -/
structure InitConfig where
  cache_ttl : ℚ
  batch_size : Int
  max_retries : Nat
  retry_delay : ℚ
deriving DecidableEq

/-- A synchronous construction failure, as the spec demands for malformed
configuration. -/
inductive InitError where
  | valueError (msg : Ident)
deriving DecidableEq

/-- `SlackBatchAPI.__init__` with `cache_type='memory'`: plain field
assignment with `self.batch_size = min(batch_size, 50)`; the body contains
no validation and no conditional raise that depends on the configuration
values, so construction always succeeds (the `Except` codomain exists only
so that "raises at construction" is statable). -/
def SlackBatchAPI_init (cfg : InitConfig) : Except InitError ClientState :=
  Except.ok
    { cache_ttl := cfg.cache_ttl
      batch_size := min cfg.batch_size 50
      max_retries := cfg.max_retries
      retry_delay := cfg.retry_delay
      memory_cache := []
      cache_timestamps := []
      metrics := { cache_hits := 0, cache_misses := 0, api_calls := 0, batches_saved := 0 } }

/-- `_set_cached` (memory branch): store the value and stamp the insertion
time `now` (= `time.time()` at the call). -/
def setCached (s : ClientState) (key : Ident) (value : Val) (now : ℚ) : ClientState :=
  { s with
    memory_cache := dset s.memory_cache key value
    cache_timestamps := dset s.cache_timestamps key now }

/-- `_get_cached` (memory branch): `timestamp = cache_timestamps.get(key)`,
then `if timestamp and now - timestamp <= cache_ttl: return
memory_cache.get(key)` else `None`.  Note the Python truthiness test: a
stored timestamp equal to `0.0` is falsy and therefore treated as a miss. -/
def getCached (s : ClientState) (key : Ident) (now : ℚ) : Option Val :=
  match dget s.cache_timestamps key with
  | some t => if t ≠ 0 ∧ now - t ≤ s.cache_ttl then dget s.memory_cache key else none
  | none => none

/-- The hit test of `_get_cached_batch`'s memory loop (identical to the
condition in `_get_cached`): a stored, truthy timestamp within TTL. -/
def isFresh (s : ClientState) (now : ℚ) (key : Ident) : Bool :=
  match dget s.cache_timestamps key with
  | some t => decide (t ≠ 0 ∧ now - t ≤ s.cache_ttl)
  | none => false

/-- `_get_cached_batch` (memory branch): one pass over `keys`, filling a
hit dict (`results[key] = memory_cache.get(key)`) and a miss list, then
`metrics.cache_hits += len(results)` and
`metrics.cache_misses += len(misses)`. -/
def getCachedBatch (s : ClientState) (now : ℚ) (keys : List Ident) :
    List (Ident × Option Val) × List Ident × ClientState :=
  let rm := keys.foldl
    (fun acc key =>
      if isFresh s now key then (dset acc.1 key (dget s.memory_cache key), acc.2)
      else (acc.1, acc.2 ++ [key]))
    (([] : List (Ident × Option Val)), ([] : List Ident))
  (rm.1, rm.2,
    { s with metrics := { s.metrics with
        cache_hits := s.metrics.cache_hits + rm.1.length
        cache_misses := s.metrics.cache_misses + rm.2.length } })

/-- `_set_cached_batch` (memory branch): `now = time.time()` once, then
store every entry and stamp it with `now`. -/
def setCachedBatch (s : ClientState) (now : ℚ) (entries : List (Ident × Val)) : ClientState :=
  { s with
    memory_cache := entries.foldl (fun d p => dset d p.1 p.2) s.memory_cache
    cache_timestamps := entries.foldl (fun d p => dset d p.1 now) s.cache_timestamps }

/-- A `SlackApiError`: `error.response.get('error')` may be absent. -/
structure SlackErr where
  error : Option Ident
deriving DecidableEq

/-- `_is_retryable_error`: `error.response.get('error') == 'rate_limited'`. -/
def is_retryable_error (e : SlackErr) : Bool :=
  decide (e.error = some "rate_limited".toList)

/-- Worker for `_execute_with_retry`: the first argument is the number of
retries still allowed (`max_retries - retry_count`), making the recursion
structural; the second is the current `retry_count`.  `call n` is the
outcome of the (n+1)-th invocation of `api_call`.  Besides the result, the
list of backoff delays passed to `asyncio.sleep` is returned. -/
def retryAux {α : Type} (retry_delay : ℚ) (call : Nat → Except SlackErr α) :
    Nat → Nat → Except SlackErr α × List ℚ
  | 0, rc => (call rc, [])
  | fuel + 1, rc =>
    match call rc with
    | Except.ok a => (Except.ok a, [])
    | Except.error e =>
      if is_retryable_error e then
        ((retryAux retry_delay call fuel (rc + 1)).1,
          retry_delay * 2 ^ rc :: (retryAux retry_delay call fuel (rc + 1)).2)
      else (Except.error e, [])

/-- `_execute_with_retry`: run `api_call`; on a `SlackApiError` that is
retryable (`rate_limited`) and with `retry_count < max_retries`, sleep
`retry_delay * 2 ** retry_count` and recurse with `retry_count + 1`;
otherwise re-raise. -/
def execute_with_retry {α : Type} (max_retries : Nat) (retry_delay : ℚ)
    (call : Nat → Except SlackErr α) (retry_count : Nat) : Except SlackErr α × List ℚ :=
  retryAux retry_delay call (max_retries - retry_count) retry_count

/-- Worker for `_create_batches`, structurally recursive on a fuel that the
slicing never exhausts when the step is positive. -/
def batchGo {α : Type} (bs : Nat) : Nat → List α → List (List α)
  | _, [] => []
  | 0, _ => []
  | fuel + 1, l => l.take bs :: batchGo bs fuel (l.drop bs)

/-- `_create_batches`: `for i in range(0, len(ids), self.batch_size):
batches.append(ids[i:i + self.batch_size])`.  A negative step makes
`range` empty (no batches); a zero step raises `ValueError` in Python and
is not modelled (no theorem touches `batch_size = 0`). -/
def createBatches {α : Type} (bs : Int) (ids : List α) : List (List α) :=
  if bs ≤ 0 then []
  else batchGo bs.toNat ids.length ids

/-- The property of `list(set(xs))` that CPython guarantees: the result
enumerates the distinct elements of `xs` exactly once.  The order is
hash-seed dependent and deliberately left unconstrained. -/
def isSetEnum (enum : List Ident → List Ident) : Prop :=
  ∀ l : List Ident, (enum l).Nodup ∧ ∀ x : Ident, x ∈ enum l ↔ x ∈ l

/-- Deduplication keeping the first occurrence of each element — the order
the spec ascribes to the Batch Planner input.  Used to state the ordering
claim; the source's `list(set(...))` is compared against it. -/
def dedupFirstSeen : List Ident → List Ident
  | [] => []
  | x :: rest => x :: (dedupFirstSeen rest).filter (fun y => decide (y ≠ x))

theorem isSetEnum_dedup : isSetEnum (fun l => l.dedup) := by
  intro l
  exact ⟨l.nodup_dedup, fun x => List.mem_dedup⟩

theorem isSetEnum_rev_dedup : isSetEnum (fun l => l.dedup.reverse) := by
  intro l
  constructor
  · exact List.nodup_reverse.mpr l.nodup_dedup
  · intro x
    rw [List.mem_reverse]
    exact List.mem_dedup

/-- `_format_conversation_results`: rebuild the map under channel ids by
stripping the namespace from each cached key with `str.replace`. -/
def format_conversation_results (cached_results : List (Ident × Option Val)) :
    List (Ident × Option Val) :=
  cached_results.foldl (fun d p => dset d (replaceAll nsConv [] p.1) p.2) []

/-- The per-channel fetch inside `_fetch_conversation_members_batch`:
`conversations.members` succeeding with a member list, or any exception,
which is caught, logged, and turned into `(channel_id, [])`.  The oracle
`remote` returns `none` exactly when the call raises. -/
def fetch_channel_members (remote : Ident → Option (List Ident)) (cid : Ident) :
    Ident × List Ident :=
  match remote cid with
  | some ms => (cid, ms)
  | none => (cid, [])

/-- `_fetch_conversation_members_batch`: fan out over the batch (gather
returns per-channel pairs in task order) and collect them into a dict.
The per-channel handler never raises, so the `isinstance(result,
Exception)` arm of the collection loop is vacuous. -/
def fetch_conversation_members_batch (remote : Ident → Option (List Ident))
    (channel_ids : List Ident) : List (Ident × List Ident) :=
  (channel_ids.map (fetch_channel_members remote)).foldl
    (fun d p => dset d p.1 p.2) []

/-- `get_conversation_members`: dedupe, batch-get the cache, fetch the
misses in batches through the retry wrapper, write fresh results back,
merge, and update metrics.  `enum` stands for `list(set(...))`; `now` is
the wall-clock instant of the call.  Values travel as `Option Val`
because `cached_results[key] = memory_cache.get(key)` is an `Optional` in
the source.  `max(0, unique - batches)` is Nat truncated subtraction. -/
def get_conversation_members (enum : List Ident → List Ident)
    (remote : Ident → Option (List Ident)) (now : ℚ)
    (s : ClientState) (channel_ids : List Ident) :
    List (Ident × Option Val) × ClientState :=
  let unique_ids := enum channel_ids
  let cache_keys := unique_ids.map (fun cid => nsConv ++ cid)
  let cm := getCachedBatch s now cache_keys
  let cached_results := cm.1
  let misses := cm.2.1
  let s1 := cm.2.2
  let channels_to_fetch := misses.map (fun key => replaceAll nsConv [] key)
  if channels_to_fetch.isEmpty then
    (format_conversation_results cached_results, s1)
  else
    let batches := createBatches s.batch_size channels_to_fetch
    let batch_results := batches.map (fun b =>
      (execute_with_retry s.max_retries s.retry_delay
        (fun _ => Except.ok (fetch_conversation_members_batch remote b)) 0).1)
    let fresh := (batch_results.filterMap (fun r => r.toOption)).flatten
    let fresh_results := fresh.foldl (fun d p => dset d p.1 (some (Sum.inl p.2))) []
    let cache_entries := fresh.foldl (fun d p => dset d (nsConv ++ p.1) (Sum.inl p.2)) []
    let s2 := if cache_entries.isEmpty then s1 else setCachedBatch s1 now cache_entries
    let all_results := fresh_results.foldl (fun d p => dset d p.1 p.2)
      (format_conversation_results cached_results)
    let s3 := { s2 with metrics := { s2.metrics with
        api_calls := s2.metrics.api_calls + batches.length
        batches_saved := s2.metrics.batches_saved + (unique_ids.length - batches.length) } }
    (all_results, s3)

/-- `_format_user_results`: strip the `user_info:` namespace. -/
def format_user_results (cached_results : List (Ident × Option Val)) :
    List (Ident × Option Val) :=
  cached_results.foldl (fun d p => dset d (replaceAll nsUser [] p.1) p.2) []

/-- The per-user fetch inside `_fetch_users_info_batch`: `users.info`
returning `response.get('user')`, with any exception caught and turned
into `(user_id, None)`.  `remote uid = none` covers a raised call, a
response without a `user` field, and a falsy user object — all of which
the collection loop's `if user_info:` filters out. -/
def fetch_user_info (remote : Ident → Option UserData) (uid : Ident) :
    Ident × Option UserData :=
  (uid, remote uid)

/-- `_fetch_users_info_batch`: fan out over the batch and keep only truthy
payloads (`if user_info: results[user_id] = user_info`). -/
def fetch_users_info_batch (remote : Ident → Option UserData) (user_ids : List Ident) :
    List (Ident × UserData) :=
  (user_ids.map (fetch_user_info remote)).foldl
    (fun d p =>
      match p.2 with
      | some u => dset d p.1 u
      | none => d) []

/-- `get_users_info`: same skeleton as `get_conversation_members` with the
`user_info:` namespace and the one-key-per-call fetcher. -/
def get_users_info (enum : List Ident → List Ident)
    (remote : Ident → Option UserData) (now : ℚ)
    (s : ClientState) (user_ids : List Ident) :
    List (Ident × Option Val) × ClientState :=
  let unique_ids := enum user_ids
  let cache_keys := unique_ids.map (fun uid => nsUser ++ uid)
  let cm := getCachedBatch s now cache_keys
  let cached_results := cm.1
  let misses := cm.2.1
  let s1 := cm.2.2
  let users_to_fetch := misses.map (fun key => replaceAll nsUser [] key)
  if users_to_fetch.isEmpty then
    (format_user_results cached_results, s1)
  else
    let batches := createBatches s.batch_size users_to_fetch
    let batch_results := batches.map (fun b =>
      (execute_with_retry s.max_retries s.retry_delay
        (fun _ => Except.ok (fetch_users_info_batch remote b)) 0).1)
    let fresh := (batch_results.filterMap (fun r => r.toOption)).flatten
    let fresh_results := fresh.foldl (fun d p => dset d p.1 (some (Sum.inr p.2))) []
    let cache_entries := fresh.foldl (fun d p => dset d (nsUser ++ p.1) (Sum.inr p.2)) []
    let s2 := if cache_entries.isEmpty then s1 else setCachedBatch s1 now cache_entries
    let all_results := fresh_results.foldl (fun d p => dset d p.1 p.2)
      (format_user_results cached_results)
    let s3 := { s2 with metrics := { s2.metrics with
        api_calls := s2.metrics.api_calls + batches.length
        batches_saved := s2.metrics.batches_saved + (unique_ids.length - batches.length) } }
    (all_results, s3)

/-- One public fetch operation of the client, carrying its own arguments,
remote-oracle behaviour for that call, and wall-clock instant. -/
inductive FetchOp : Type where
  | members : List Ident → (Ident → Option (List Ident)) → ℚ → FetchOp
  | users : List Ident → (Ident → Option UserData) → ℚ → FetchOp

/-- Identifiers requested by an operation. -/
def opIds : FetchOp → List Ident
  | FetchOp.members ids _ _ => ids
  | FetchOp.users ids _ _ => ids

/-- State reached after one fetch operation. -/
def runOp (enum : List Ident → List Ident) (s : ClientState) : FetchOp → ClientState
  | FetchOp.members ids remote now => (get_conversation_members enum remote now s ids).2
  | FetchOp.users ids remote now => (get_users_info enum remote now s ids).2

/-- State reached after a sequence of fetch operations. -/
def runOps (enum : List Ident → List Ident) (s : ClientState) (ops : List FetchOp) :
    ClientState :=
  ops.foldl (runOp enum) s

theorem batchGo_flatten {α : Type} (bs : Nat) (hbs : 1 ≤ bs) :
    ∀ (fuel : Nat) (l : List α), l.length ≤ fuel → (batchGo bs fuel l).flatten = l := by
  intro fuel
  induction fuel with
  | zero =>
    intro l hl
    have : l = [] := List.eq_nil_of_length_eq_zero (Nat.le_zero.mp hl)
    subst this
    rfl
  | succ fuel ih =>
    intro l hl
    cases l with
    | nil => rfl
    | cons c rest =>
      have hrec : ((c :: rest).drop bs).length ≤ fuel := by
        rw [List.length_drop]
        simp only [List.length_cons] at hl ⊢
        omega
      simp only [batchGo, List.flatten_cons, ih _ hrec, List.take_append_drop]

theorem batchGo_length {α : Type} (bs : Nat) (hbs : 1 ≤ bs) :
    ∀ (fuel : Nat) (l : List α), l.length ≤ fuel →
      (batchGo bs fuel l).length = (l.length + bs - 1) / bs := by
  intro fuel
  induction fuel with
  | zero =>
    intro l hl
    have : l = [] := List.eq_nil_of_length_eq_zero (Nat.le_zero.mp hl)
    subst this
    simp [batchGo, Nat.div_eq_of_lt (by omega : bs - 1 < bs)]
  | succ fuel ih =>
    intro l hl
    cases l with
    | nil => simp [batchGo, Nat.div_eq_of_lt (by omega : bs - 1 < bs)]
    | cons c rest =>
      have hrec : ((c :: rest).drop bs).length ≤ fuel := by
        rw [List.length_drop]
        simp only [List.length_cons] at hl ⊢
        omega
      have hlen : ((c :: rest).drop bs).length = (c :: rest).length - bs :=
        List.length_drop bs (c :: rest)
      simp only [batchGo, List.length_cons, ih _ hrec, hlen, List.length_cons]
      generalize hgen : rest.length + 1 = n
      have hn : 1 ≤ n := by omega
      have h0 : 0 < bs := hbs
      by_cases hc : n ≤ bs
      · have e1 : n - bs = 0 := by omega
        have e2 : n + bs - 1 = (n - 1) + bs := by omega
        rw [e1, e2, Nat.add_div_right _ h0, Nat.div_eq_of_lt (by omega : n - 1 < bs),
          Nat.div_eq_of_lt (by omega : 0 + bs - 1 < bs)]
      · have e1 : n + bs - 1 = ((n - bs - 1) + bs) + bs := by omega
        have e2 : n - bs + bs - 1 = (n - bs - 1) + bs := by omega
        rw [e2, e1, Nat.add_div_right _ h0, Nat.add_div_right _ h0, Nat.add_div_right _ h0]

theorem batchGo_mem_length {α : Type} (bs : Nat) :
    ∀ (fuel : Nat) (l c : List α), c ∈ batchGo bs fuel l → c.length ≤ bs := by
  intro fuel
  induction fuel with
  | zero =>
    intro l c hc
    cases l <;> simp [batchGo] at hc
  | succ fuel ih =>
    intro l c hc
    cases l with
    | nil => simp [batchGo] at hc
    | cons x rest =>
      simp only [batchGo, List.mem_cons] at hc
      rcases hc with h | h
      · subst h
        simp [List.length_take]
      · exact ih _ c h

theorem batchGo_mem_sublist {α : Type} (bs : Nat) :
    ∀ (fuel : Nat) (l c : List α), c ∈ batchGo bs fuel l → c.Sublist l := by
  intro fuel
  induction fuel with
  | zero =>
    intro l c hc
    cases l <;> simp [batchGo] at hc
  | succ fuel ih =>
    intro l c hc
    cases l with
    | nil => simp [batchGo] at hc
    | cons x rest =>
      simp only [batchGo, List.mem_cons] at hc
      rcases hc with h | h
      · subst h
        exact List.take_sublist bs (x :: rest)
      · exact (ih _ c h).trans (List.drop_sublist bs (x :: rest))

theorem createBatches_eq_batchGo {α : Type} (bs : Int) (hbs : 1 ≤ bs) (l : List α) :
    createBatches bs l = batchGo bs.toNat l.length l := by
  unfold createBatches
  rw [if_neg (by omega)]

theorem one_le_toNat_of_one_le {bs : Int} (hbs : 1 ≤ bs) : 1 ≤ bs.toNat := by
  omega

theorem isPrefixOf_append_self (l t : Ident) : l.isPrefixOf (l ++ t) = true := by
  induction l with
  | nil => cases t <;> rfl
  | cons c l ih => simp [List.isPrefixOf, ih]

theorem replaceAllGo_no_occur (pat rep : Ident) :
    ∀ (fuel : Nat) (s : Ident), s.length ≤ fuel → hasOccur pat s = false →
      replaceAllGo pat rep fuel s = s := by
  intro fuel
  induction fuel with
  | zero =>
    intro s hl _
    cases s with
    | nil => rfl
    | cons c rest => simp at hl
  | succ fuel ih =>
    intro s hl hocc
    cases s with
    | nil => rfl
    | cons c rest =>
      simp only [hasOccur, Bool.or_eq_false_iff] at hocc
      simp only [replaceAllGo, hocc.1, Bool.false_eq_true, if_false]
      rw [ih rest (by simpa using Nat.le_of_succ_le_succ (by simpa using hl)) hocc.2]

theorem replaceAll_roundtrip (pat id : Ident) (hpat : pat ≠ [])
    (h : hasOccur pat id = false) : replaceAll pat [] (pat ++ id) = id := by
  obtain ⟨c, pat', hc⟩ := List.exists_cons_of_ne_nil hpat
  subst hc
  unfold replaceAll
  rw [if_neg (by simp)]
  have hshape : (c :: pat') ++ id = c :: (pat' ++ id) := rfl
  rw [hshape]
  have hlen : (c :: (pat' ++ id)).length = (pat' ++ id).length + 1 := by simp
  rw [hlen]
  have hpre : (c :: pat').isPrefixOf (c :: (pat' ++ id)) = true := by
    rw [← hshape]
    exact isPrefixOf_append_self _ _
  simp only [replaceAllGo, hpre, if_true, List.nil_append]
  have hdl : (c :: pat').length - 1 = pat'.length := by simp
  rw [hdl]
  have hdrop : (pat' ++ id).drop pat'.length = id := by
    rw [List.drop_left]
  rw [hdrop]
  exact replaceAllGo_no_occur _ _ _ _ (by simp) h

theorem execute_with_retry_pure_ok {α : Type} (mr : Nat) (rd : ℚ) (a : α) (rc : Nat) :
    execute_with_retry mr rd (fun _ => Except.ok a) rc = (Except.ok a, []) := by
  unfold execute_with_retry
  cases mr - rc with
  | zero => rfl
  | succ n => rfl

theorem length_filter_partition {α : Type} (p : α → Bool) (l : List α) :
    (l.filter p).length + (l.filter (fun x => !p x)).length = l.length := by
  induction l with
  | nil => rfl
  | cons x l ih =>
    by_cases hx : p x <;> simp [List.filter_cons, hx, ← ih] <;> omega

theorem gcb_foldl_snd (s : ClientState) (now : ℚ) :
    ∀ (keys : List Ident) (acc : List (Ident × Option Val) × List Ident),
      (keys.foldl
        (fun acc key =>
          if isFresh s now key then (dset acc.1 key (dget s.memory_cache key), acc.2)
          else (acc.1, acc.2 ++ [key])) acc).2 =
      acc.2 ++ keys.filter (fun k => !isFresh s now k) := by
  intro keys
  induction keys with
  | nil => intro acc; simp
  | cons k keys ih =>
    intro acc
    by_cases hk : isFresh s now k
    · simp only [List.foldl_cons, if_pos hk, ih, List.filter_cons, hk]
      simp
    · simp only [List.foldl_cons, if_neg hk, ih, List.filter_cons]
      simp only [Bool.not_eq_true] at hk
      simp [hk]

theorem gcb_foldl_fst (s : ClientState) (now : ℚ) :
    ∀ (keys : List Ident) (acc : List (Ident × Option Val) × List Ident),
      (keys.foldl
        (fun acc key =>
          if isFresh s now key then (dset acc.1 key (dget s.memory_cache key), acc.2)
          else (acc.1, acc.2 ++ [key])) acc).1 =
      (keys.filter (isFresh s now)).foldl
        (fun d k => dset d k (dget s.memory_cache k)) acc.1 := by
  intro keys
  induction keys with
  | nil => intro acc; simp
  | cons k keys ih =>
    intro acc
    by_cases hk : isFresh s now k
    · simp only [List.foldl_cons, if_pos hk, List.filter_cons, hk, if_true]
      exact ih (dset acc.1 k (dget s.memory_cache k), acc.2)
    · simp only [List.foldl_cons, if_neg hk, List.filter_cons]
      exact ih (acc.1, acc.2 ++ [k])

theorem getCachedBatch_misses (s : ClientState) (now : ℚ) (keys : List Ident) :
    (getCachedBatch s now keys).2.1 = keys.filter (fun k => !isFresh s now k) := by
  unfold getCachedBatch
  simpa using gcb_foldl_snd s now keys ([], [])

theorem getCachedBatch_results (s : ClientState) (now : ℚ) (keys : List Ident)
    (hnd : keys.Nodup) :
    (getCachedBatch s now keys).1 =
      (keys.filter (isFresh s now)).map (fun k => (k, dget s.memory_cache k)) := by
  unfold getCachedBatch
  have h1 := gcb_foldl_fst s now keys ([], [])
  simp only at h1
  rw [h1]
  have h2 := foldl_dset_append (fun k : Ident => k) (fun k => dget s.memory_cache k)
    (keys.filter (isFresh s now)) []
  simp only [List.map_id_fun', id] at h2
  have h2' := h2 (by simpa using hnd.filter (isFresh s now)) (fun x _ => rfl)
  simpa using h2'

theorem getCachedBatch_state (s : ClientState) (now : ℚ) (keys : List Ident) :
    (getCachedBatch s now keys).2.2 =
      { s with metrics := { s.metrics with
          cache_hits := s.metrics.cache_hits + (getCachedBatch s now keys).1.length
          cache_misses := s.metrics.cache_misses + (getCachedBatch s now keys).2.1.length } } :=
  rfl

/-- A client as constructed by the example usage: memory cache, five-minute
TTL, batch size 50, three retries, one-second base delay. -/
def s50 : ClientState :=
  { cache_ttl := 300
    batch_size := 50
    max_retries := 3
    retry_delay := 1
    memory_cache := []
    cache_timestamps := []
    metrics := { cache_hits := 0, cache_misses := 0, api_calls := 0, batches_saved := 0 } }

theorem getCached_of_ts (s : ClientState) (key : Ident) (now t : ℚ)
    (h : dget s.cache_timestamps key = some t) :
    getCached s key now =
      if t ≠ 0 ∧ now - t ≤ s.cache_ttl then dget s.memory_cache key else none := by
  unfold getCached
  rw [h]

/-- C3: for the in-process cache, `set(k,v)` at a (positive) instant
followed by `get(k)` returns `v` while the elapsed time is within the TTL,
and behaves as a miss once the TTL is exceeded even though the entry is
still physically present in the store (lazy expiry). -/
theorem claim_C3_theorem (s : ClientState) (k : Ident) (v : Val) (tset tget : ℚ)
    (hpos : 0 < tset) :
    (tget - tset ≤ s.cache_ttl → getCached (setCached s k v tset) k tget = some v) ∧
    (s.cache_ttl < tget - tset →
      getCached (setCached s k v tset) k tget = none ∧
      dget (setCached s k v tset).memory_cache k = some v) := by
  have hts : dget (setCached s k v tset).cache_timestamps k = some tset :=
    dget_dset_self _ _ _
  have hmc : dget (setCached s k v tset).memory_cache k = some v :=
    dget_dset_self _ _ _
  constructor
  · intro hle
    rw [getCached_of_ts _ _ _ _ hts,
      if_pos ⟨ne_of_gt hpos, by simpa [setCached] using hle⟩]
    exact hmc
  · intro hgt
    refine ⟨?_, hmc⟩
    rw [getCached_of_ts _ _ _ _ hts,
      if_neg (fun hc => absurd hc.2 (not_le.mpr (by simpa [setCached] using hgt)))]

theorem claim_C3_witness :
    getCached (setCached s50 ['k'] (Sum.inl []) 1) ['k'] 2 = some (Sum.inl []) :=
  (claim_C3_theorem s50 ['k'] (Sum.inl []) 1 2 (by norm_num)).1 (by norm_num [s50])

/-- C9 counterexample: constructing the client with the negative batch size
`-5` does not raise; `__init__` succeeds and stores `min(-5, 50) = -5`. -/
theorem claim_C9_counterexample :
    SlackBatchAPI_init { cache_ttl := 300, batch_size := -5, max_retries := 3, retry_delay := 1 } =
      Except.ok
        { cache_ttl := 300
          batch_size := -5
          max_retries := 3
          retry_delay := 1
          memory_cache := []
          cache_timestamps := []
          metrics := { cache_hits := 0, cache_misses := 0, api_calls := 0, batches_saved := 0 } } :=
  rfl

/-- C9 amended: construction never raises, for a negative batch size or any
other configuration; the batch size is stored clamped only from above,
as `min(batch_size, 50)`, so a negative value is retained as-is. -/
theorem claim_C9_amended_theorem (cfg : InitConfig) :
    SlackBatchAPI_init cfg =
      Except.ok
        { cache_ttl := cfg.cache_ttl
          batch_size := min cfg.batch_size 50
          max_retries := cfg.max_retries
          retry_delay := cfg.retry_delay
          memory_cache := []
          cache_timestamps := []
          metrics := { cache_hits := 0, cache_misses := 0, api_calls := 0, batches_saved := 0 } } ∧
    min cfg.batch_size 50 ≤ 50 :=
  ⟨rfl, min_le_right _ _⟩

/-- C10: prepending a namespace string and recovering the identifier with
`str.replace(ns, '')` round-trips exactly when the identifier does not
itself contain the namespace string; the final conjunct shows the
precondition is required — `replace` removes every occurrence, so an
identifier containing the namespace is mangled. -/
theorem claim_C10_theorem :
    (∀ cid : Ident, hasOccur nsConv cid = false →
      replaceAll nsConv [] (nsConv ++ cid) = cid) ∧
    (∀ uid : Ident, hasOccur nsUser uid = false →
      replaceAll nsUser [] (nsUser ++ uid) = uid) ∧
    replaceAll nsConv [] (nsConv ++ (nsConv ++ ['x'])) ≠ nsConv ++ ['x'] := by
  refine ⟨?_, ?_, ?_⟩
  · intro cid h
    exact replaceAll_roundtrip _ _ (by decide) h
  · intro uid h
    exact replaceAll_roundtrip _ _ (by decide) h
  · decide

theorem claim_C10_witness :
    replaceAll nsConv [] (nsConv ++ ['C', '1']) = ['C', '1'] :=
  claim_C10_theorem.1 ['C', '1'] (by decide)

theorem retryAux_all_retryable {α : Type} (rd : ℚ) (call : Nat → Except SlackErr α) :
    ∀ (fuel rc : Nat),
      (∀ i, rc ≤ i → i ≤ rc + fuel →
        ∃ e, call i = Except.error e ∧ is_retryable_error e = true) →
      ∃ e, call (rc + fuel) = Except.error e ∧
        retryAux rd call fuel rc =
          (Except.error e, (List.range' rc fuel).map (fun i => rd * 2 ^ i)) := by
  intro fuel
  induction fuel with
  | zero =>
    intro rc h
    rcases h rc le_rfl (by omega) with ⟨e, he, _⟩
    exact ⟨e, by simpa using he, by simp [retryAux, he]⟩
  | succ fuel ih =>
    intro rc h
    rcases h rc le_rfl (by omega) with ⟨e0, he0, hr0⟩
    rcases ih (rc + 1) (fun i h1 h2 => h i (by omega) (by omega)) with ⟨e, he, hrec⟩
    refine ⟨e, ?_, ?_⟩
    · rw [show rc + (fuel + 1) = (rc + 1) + fuel by omega]
      exact he
    · simp only [retryAux, he0, hr0, if_true, hrec, List.range'_succ]
      simp

/-- C5: the retry wrapper retries a rate-limited failure after a delay of
`retry_delay * 2 ^ attempt` while fewer than `max_retries` retries have
been attempted, propagates any non-rate-limit error immediately with no
retry (and no sleep), and after `max_retries` retries propagates the
rate-limit error, having slept the full exponential backoff schedule. -/
theorem claim_C5_theorem {α : Type} (mr : Nat) (rd : ℚ) (call : Nat → Except SlackErr α) :
    (∀ (rc : Nat) (e : SlackErr), rc < mr → call rc = Except.error e →
      is_retryable_error e = true →
      execute_with_retry mr rd call rc =
        ((execute_with_retry mr rd call (rc + 1)).1,
          rd * 2 ^ rc :: (execute_with_retry mr rd call (rc + 1)).2)) ∧
    (∀ (rc : Nat) (e : SlackErr), call rc = Except.error e →
      is_retryable_error e = false →
      execute_with_retry mr rd call rc = (Except.error e, [])) ∧
    ((∀ i, i ≤ mr → ∃ e, call i = Except.error e ∧ is_retryable_error e = true) →
      ∃ e, call mr = Except.error e ∧
        execute_with_retry mr rd call 0 =
          (Except.error e, (List.range mr).map (fun i => rd * 2 ^ i))) := by
  refine ⟨?_, ?_, ?_⟩
  · intro rc e hlt hc hr
    unfold execute_with_retry
    rw [show mr - rc = (mr - (rc + 1)) + 1 by omega]
    simp [retryAux, hc, hr]
  · intro rc e hc hr
    unfold execute_with_retry
    cases h : mr - rc with
    | zero => simp [retryAux, hc]
    | succ n => simp [retryAux, hc, hr]
  · intro hall
    rcases retryAux_all_retryable rd call mr 0
      (fun i h1 h2 => hall i (by omega)) with ⟨e, he, hrun⟩
    refine ⟨e, by simpa using he, ?_⟩
    unfold execute_with_retry
    rw [Nat.sub_zero, hrun, List.range_eq_range']

/-- The oracle used to witness C5: rate-limited on the first invocation,
successful afterwards. -/
def callW : Nat → Except SlackErr Nat :=
  fun n => if n = 0 then Except.error { error := some "rate_limited".toList } else Except.ok 7

theorem claim_C5_witness :
    execute_with_retry 3 1 callW 0 =
      ((execute_with_retry 3 1 callW 1).1,
        (1 : ℚ) * 2 ^ 0 :: (execute_with_retry 3 1 callW 1).2) :=
  (claim_C5_theorem 3 1 callW).1 0 { error := some "rate_limited".toList }
    (by norm_num) rfl (by decide)

theorem count_nodup (l : List Ident) (x : Ident) (hnd : l.Nodup) :
    l.count x = if x ∈ l then 1 else 0 := by
  induction l with
  | nil => simp
  | cons y l ih =>
    rw [List.nodup_cons] at hnd
    rw [List.count_cons]
    by_cases hyx : y = x
    · subst hyx
      simp [ih hnd.2, hnd.1]
    · have hbe : (y == x) = false := by simp [hyx]
      have hmem : (x ∈ y :: l) ↔ (x ∈ l) := by
        simp only [List.mem_cons, or_iff_right_iff_imp]
        intro h
        exact absurd h.symm hyx
      simp only [hbe, Bool.false_eq_true, if_false, Nat.add_zero, ih hnd.2]
      rw [if_congr hmem rfl rfl]

theorem dedupFirstSeen_nodup (l : List Ident) : (dedupFirstSeen l).Nodup := by
  induction l with
  | nil => exact List.nodup_nil
  | cons x rest ih =>
    rw [dedupFirstSeen, List.nodup_cons]
    constructor
    · intro hx
      rcases List.mem_filter.mp hx with ⟨_, hdec⟩
      simp at hdec
    · exact ih.filter _

theorem dedupFirstSeen_mem (l : List Ident) (a : Ident) :
    a ∈ dedupFirstSeen l ↔ a ∈ l := by
  induction l with
  | nil => simp [dedupFirstSeen]
  | cons x rest ih =>
    rw [dedupFirstSeen]
    by_cases hax : a = x
    · subst hax
      simp
    · simp only [List.mem_cons, List.mem_filter, ih, decide_eq_true_eq]
      constructor
      · rintro (h | ⟨h, _⟩)
        · exact Or.inl h
        · exact Or.inr h
      · rintro (h | h)
        · exact Or.inl h
        · exact Or.inr ⟨h, hax⟩

/-- C2: with a positive configured batch size, the client stores
`min(batch_size, 50) ≤ 50`, and `_create_batches` splits the deduplicated
identifier list into chunks of length at most that effective size, with
exactly `ceil(unique_count / batch_size)` chunks (zero for an empty list),
no duplicate inside any chunk, and each unique input identifier occurring
exactly once in the concatenation of all chunks. -/
theorem claim_C2_theorem (enum : List Ident → List Ident) (henum : isSetEnum enum)
    (cfg : InitConfig) (hbs : 1 ≤ cfg.batch_size) (s : ClientState)
    (hs : SlackBatchAPI_init cfg = Except.ok s) (ids : List Ident) :
    s.batch_size ≤ 50 ∧ 1 ≤ s.batch_size ∧
    (∀ c ∈ createBatches s.batch_size (enum ids),
      c.length ≤ s.batch_size.toNat ∧ c.Nodup) ∧
    (createBatches s.batch_size (enum ids)).length =
      ((enum ids).length + s.batch_size.toNat - 1) / s.batch_size.toNat ∧
    (createBatches s.batch_size (enum ids)).flatten = enum ids ∧
    (∀ x : Ident, ((createBatches s.batch_size (enum ids)).flatten.count x =
      if x ∈ ids then 1 else 0)) := by
  have hbsz : s.batch_size = min cfg.batch_size 50 := by
    unfold SlackBatchAPI_init at hs
    rw [← Except.ok.inj hs]
  have hle : s.batch_size ≤ 50 := by rw [hbsz]; exact min_le_right _ _
  have hge : 1 ≤ s.batch_size := by rw [hbsz]; omega
  have hgeN : 1 ≤ s.batch_size.toNat := one_le_toNat_of_one_le hge
  have hnd : (enum ids).Nodup := (henum ids).1
  have heq := createBatches_eq_batchGo s.batch_size hge (enum ids)
  have hflat : (createBatches s.batch_size (enum ids)).flatten = enum ids := by
    rw [heq]
    exact batchGo_flatten _ hgeN _ _ le_rfl
  refine ⟨hle, hge, ?_, ?_, hflat, ?_⟩
  · intro c hc
    rw [heq] at hc
    exact ⟨batchGo_mem_length _ _ _ _ hc, hnd.sublist (batchGo_mem_sublist _ _ _ _ hc)⟩
  · rw [heq]
    exact batchGo_length _ hgeN _ _ le_rfl
  · intro x
    rw [hflat, count_nodup _ _ hnd, if_congr ((henum ids).2 x) rfl rfl]

theorem claim_C2_witness :
    (createBatches s50.batch_size ([['a'], ['b'], ['a']].dedup)).flatten =
      [['a'], ['b'], ['a']].dedup :=
  ((claim_C2_theorem (fun l => l.dedup) isSetEnum_dedup
    { cache_ttl := 300, batch_size := 50, max_retries := 3, retry_delay := 1 }
    (by norm_num) s50 rfl [['a'], ['b'], ['a']]).2.2.2.2).1

/-- C8 counterexample: the deduplication step is `list(set(...))`, whose
enumeration order is decided by the interpreter's (randomized) string
hashing, not by first appearance; under the admissible enumeration that
lists the distinct elements in reverse, the list fed to the Batch Planner
— and hence the concatenation of the produced batches — is not in
first-seen order. -/
theorem claim_C8_counterexample :
    ¬ (∀ (enum : List Ident → List Ident), isSetEnum enum →
        ∀ (ids : List Ident) (bs : Int), 1 ≤ bs →
          enum ids = dedupFirstSeen ids ∧
          (createBatches bs (enum ids)).flatten = dedupFirstSeen ids) := by
  intro h
  have h1 := (h (fun l => l.dedup.reverse) isSetEnum_rev_dedup [['a'], ['b']] 50
    (by norm_num)).1
  exact absurd h1 (by decide)

/-- C8 amended: the list fed to the Batch Planner is a permutation of the
first-seen-order deduplication — each unique input identifier exactly once
— and the concatenated batches reproduce exactly that list; its order,
however, is the set-enumeration order of the interpreter, which need not
be first-seen order. -/
theorem claim_C8_amended_theorem (enum : List Ident → List Ident)
    (henum : isSetEnum enum) (bs : Int) (hbs : 1 ≤ bs) (ids : List Ident) :
    (createBatches bs (enum ids)).flatten = enum ids ∧
    (enum ids).Perm (dedupFirstSeen ids) := by
  constructor
  · rw [createBatches_eq_batchGo bs hbs]
    exact batchGo_flatten _ (one_le_toNat_of_one_le hbs) _ _ le_rfl
  · refine List.perm_of_nodup_nodup_toFinset_eq (henum ids).1 (dedupFirstSeen_nodup ids) ?_
    ext x
    simp only [List.mem_toFinset, dedupFirstSeen_mem]
    exact (henum ids).2 x

theorem claim_C8_amended_witness :
    (createBatches 50 (([['a'], ['b']].dedup).reverse)).flatten =
      ([['a'], ['b']].dedup).reverse :=
  (claim_C8_amended_theorem (fun l => l.dedup.reverse) isSetEnum_rev_dedup 50
    (by norm_num) [['a'], ['b']]).1

/-- The cache keys built by `get_conversation_members` for a request. -/
def convKeys (enum : List Ident → List Ident) (ids : List Ident) : List Ident :=
  (enum ids).map (fun cid => nsConv ++ cid)

/-- The cache keys built by `get_users_info` for a request. -/
def userKeys (enum : List Ident → List Ident) (ids : List Ident) : List Ident :=
  (enum ids).map (fun uid => nsUser ++ uid)

/-- The keys of `keys` that miss (stale or absent) at instant `now`. -/
def staleKeys (s : ClientState) (now : ℚ) (keys : List Ident) : List Ident :=
  keys.filter (fun k => !isFresh s now k)

/-- The keys of `keys` that hit at instant `now`. -/
def hitKeys (s : ClientState) (now : ℚ) (keys : List Ident) : List Ident :=
  keys.filter (isFresh s now)

theorem list_isEmpty_false {α : Type} (l : List α) (h : l ≠ []) : l.isEmpty = false := by
  cases l with
  | nil => exact absurd rfl h
  | cons x l => rfl

theorem setCachedBatch_metrics (s : ClientState) (now : ℚ) (entries : List (Ident × Val)) :
    (setCachedBatch s now entries).metrics = s.metrics := rfl

theorem setCachedBatch_batch_size (s : ClientState) (now : ℚ) (entries : List (Ident × Val)) :
    (setCachedBatch s now entries).batch_size = s.batch_size := rfl

theorem getCachedBatch_metrics (s : ClientState) (now : ℚ) (keys : List Ident) :
    (getCachedBatch s now keys).2.2.metrics =
      { s.metrics with
        cache_hits := s.metrics.cache_hits + (getCachedBatch s now keys).1.length
        cache_misses := s.metrics.cache_misses + (getCachedBatch s now keys).2.1.length } :=
  rfl

/-- All-hit path of `get_conversation_members`: with no cache miss, the call
returns the formatted cache hits and the state whose only change is the
metric bump of the batch lookup — in particular it does not depend on the
remote oracle at all. -/
theorem conv_hit_path (enum : List Ident → List Ident) (rM : Ident → Option (List Ident))
    (now : ℚ) (s : ClientState) (ids : List Ident)
    (hmiss : staleKeys s now (convKeys enum ids) = []) :
    get_conversation_members enum rM now s ids =
      (format_conversation_results (getCachedBatch s now (convKeys enum ids)).1,
        (getCachedBatch s now (convKeys enum ids)).2.2) := by
  unfold staleKeys convKeys at *
  simp only [get_conversation_members]
  rw [getCachedBatch_misses, hmiss]
  simp

/-- All-hit path of `get_users_info`. -/
theorem user_hit_path (enum : List Ident → List Ident) (rU : Ident → Option UserData)
    (now : ℚ) (s : ClientState) (ids : List Ident)
    (hmiss : staleKeys s now (userKeys enum ids) = []) :
    get_users_info enum rU now s ids =
      (format_user_results (getCachedBatch s now (userKeys enum ids)).1,
        (getCachedBatch s now (userKeys enum ids)).2.2) := by
  unfold staleKeys userKeys at *
  simp only [get_users_info]
  rw [getCachedBatch_misses, hmiss]
  simp

/-- Miss-path metrics of `get_conversation_members`: the hit/miss counters
are bumped by the lookup, `api_calls` by the number of batches —
`ceil(misses / batch_size)` — and `batches_saved` by the (truncated)
excess of unique ids over batches. -/
theorem conv_metrics (enum : List Ident → List Ident) (rM : Ident → Option (List Ident))
    (now : ℚ) (s : ClientState) (ids : List Ident)
    (hbs : 1 ≤ s.batch_size)
    (hnd : (convKeys enum ids).Nodup)
    (hM : staleKeys s now (convKeys enum ids) ≠ []) :
    (get_conversation_members enum rM now s ids).2.metrics =
      { cache_hits := s.metrics.cache_hits + (hitKeys s now (convKeys enum ids)).length
        cache_misses := s.metrics.cache_misses + (staleKeys s now (convKeys enum ids)).length
        api_calls := s.metrics.api_calls +
          ((staleKeys s now (convKeys enum ids)).length + s.batch_size.toNat - 1) /
            s.batch_size.toNat
        batches_saved := s.metrics.batches_saved +
          ((enum ids).length -
            ((staleKeys s now (convKeys enum ids)).length + s.batch_size.toNat - 1) /
              s.batch_size.toNat) } := by
  unfold staleKeys hitKeys convKeys at *
  have hch : (((((enum ids).map (fun cid => nsConv ++ cid))).filter
      (fun k => !isFresh s now k)).map (fun key => replaceAll nsConv [] key)) ≠ [] := by
    intro h
    exact hM (List.map_eq_nil_iff.mp h)
  simp only [get_conversation_members]
  rw [getCachedBatch_misses, list_isEmpty_false _ hch]
  simp only [Bool.false_eq_true, if_false, apply_ite ClientState.metrics,
    setCachedBatch_metrics, ite_self, getCachedBatch_metrics,
    getCachedBatch_results s now _ hnd, getCachedBatch_misses,
    createBatches_eq_batchGo s.batch_size hbs]
  rw [batchGo_length s.batch_size.toNat (one_le_toNat_of_one_le hbs) _ _ le_rfl]
  simp [List.length_map]

/-- Miss-path metrics of `get_users_info` (same shape). -/
theorem user_metrics (enum : List Ident → List Ident) (rU : Ident → Option UserData)
    (now : ℚ) (s : ClientState) (ids : List Ident)
    (hbs : 1 ≤ s.batch_size)
    (hnd : (userKeys enum ids).Nodup)
    (hM : staleKeys s now (userKeys enum ids) ≠ []) :
    (get_users_info enum rU now s ids).2.metrics =
      { cache_hits := s.metrics.cache_hits + (hitKeys s now (userKeys enum ids)).length
        cache_misses := s.metrics.cache_misses + (staleKeys s now (userKeys enum ids)).length
        api_calls := s.metrics.api_calls +
          ((staleKeys s now (userKeys enum ids)).length + s.batch_size.toNat - 1) /
            s.batch_size.toNat
        batches_saved := s.metrics.batches_saved +
          ((enum ids).length -
            ((staleKeys s now (userKeys enum ids)).length + s.batch_size.toNat - 1) /
              s.batch_size.toNat) } := by
  unfold staleKeys hitKeys userKeys at *
  have hch : (((((enum ids).map (fun uid => nsUser ++ uid))).filter
      (fun k => !isFresh s now k)).map (fun key => replaceAll nsUser [] key)) ≠ [] := by
    intro h
    exact hM (List.map_eq_nil_iff.mp h)
  simp only [get_users_info]
  rw [getCachedBatch_misses, list_isEmpty_false _ hch]
  simp only [Bool.false_eq_true, if_false, apply_ite ClientState.metrics,
    setCachedBatch_metrics, ite_self, getCachedBatch_metrics,
    getCachedBatch_results s now _ hnd, getCachedBatch_misses,
    createBatches_eq_batchGo s.batch_size hbs]
  rw [batchGo_length s.batch_size.toNat (one_le_toNat_of_one_le hbs) _ _ le_rfl]
  simp [List.length_map]

theorem convKeys_nodup (enum : List Ident → List Ident) (henum : isSetEnum enum)
    (ids : List Ident) : (convKeys enum ids).Nodup :=
  (henum ids).1.map (fun _ _ h => List.append_cancel_left h)

theorem userKeys_nodup (enum : List Ident → List Ident) (henum : isSetEnum enum)
    (ids : List Ident) : (userKeys enum ids).Nodup :=
  (henum ids).1.map (fun _ _ h => List.append_cancel_left h)

/-- C6: when a fetch reaches the remote phase (at least one cache miss
among the M stale keys of the U unique identifiers), it issues exactly
`ceil(M / batch_size)` batches — `api_calls` grows by that amount — and
`batches_saved` grows by `max(0, U - batches)` (Nat-truncated subtraction
here), for both fetch operations. -/
theorem claim_C6_theorem (enum : List Ident → List Ident) (henum : isSetEnum enum)
    (s : ClientState) (now : ℚ) (ids : List Ident)
    (rM : Ident → Option (List Ident)) (rU : Ident → Option UserData)
    (hbs : 1 ≤ s.batch_size) :
    (staleKeys s now (convKeys enum ids) ≠ [] →
      (get_conversation_members enum rM now s ids).2.metrics.api_calls =
        s.metrics.api_calls +
          ((staleKeys s now (convKeys enum ids)).length + s.batch_size.toNat - 1) /
            s.batch_size.toNat ∧
      (get_conversation_members enum rM now s ids).2.metrics.batches_saved =
        s.metrics.batches_saved +
          ((enum ids).length -
            ((staleKeys s now (convKeys enum ids)).length + s.batch_size.toNat - 1) /
              s.batch_size.toNat)) ∧
    (staleKeys s now (userKeys enum ids) ≠ [] →
      (get_users_info enum rU now s ids).2.metrics.api_calls =
        s.metrics.api_calls +
          ((staleKeys s now (userKeys enum ids)).length + s.batch_size.toNat - 1) /
            s.batch_size.toNat ∧
      (get_users_info enum rU now s ids).2.metrics.batches_saved =
        s.metrics.batches_saved +
          ((enum ids).length -
            ((staleKeys s now (userKeys enum ids)).length + s.batch_size.toNat - 1) /
              s.batch_size.toNat)) := by
  constructor
  · intro hM
    rw [conv_metrics enum rM now s ids hbs (convKeys_nodup enum henum ids) hM]
    exact ⟨rfl, rfl⟩
  · intro hM
    rw [user_metrics enum rU now s ids hbs (userKeys_nodup enum henum ids) hM]
    exact ⟨rfl, rfl⟩

/-- A remote member oracle whose every call raises. -/
def remoteFail : Ident → Option (List Ident) := fun _ => none

/-- A remote user oracle whose every call raises (or returns no user). -/
def remoteUFail : Ident → Option UserData := fun _ => none

theorem claim_C6_witness :
    (get_conversation_members (fun l => l.dedup) remoteFail 1 s50 [['a']]).2.metrics.api_calls =
      s50.metrics.api_calls +
        ((staleKeys s50 1 (convKeys (fun l => l.dedup) [['a']])).length +
          s50.batch_size.toNat - 1) / s50.batch_size.toNat :=
  ((claim_C6_theorem (fun l => l.dedup) isSetEnum_dedup s50 1 [['a']]
    remoteFail remoteUFail (by norm_num [s50])).1 (by decide)).1

/-- C1 counterexample: with an empty cache, requesting channel `C1` while
the remote call for it raises (fails terminally) yields a returned map in
which `C1` is PRESENT, mapped to the empty member list placeholder, and a
cache entry `conversation_members:C1 ↦ []` IS created — the per-channel
handler of `_fetch_conversation_members_batch` catches the exception and
returns `(channel_id, [])`, which is then merged and cached like a
success. -/
theorem claim_C1_counterexample :
    dget (get_conversation_members (fun l => l.dedup) remoteFail 1 s50 [['C', '1']]).1
      ['C', '1'] = some (some (Sum.inl [])) ∧
    dget (get_conversation_members (fun l => l.dedup) remoteFail 1 s50
      [['C', '1']]).2.memory_cache (nsConv ++ ['C', '1']) = some (Sum.inl []) := by
  constructor
  · decide
  · decide

theorem conv_delta (enum : List Ident → List Ident) (rM : Ident → Option (List Ident))
    (now : ℚ) (s : ClientState) (ids : List Ident) :
    ∃ dh dm da ds : Nat,
      (get_conversation_members enum rM now s ids).2.metrics =
        { cache_hits := s.metrics.cache_hits + dh
          cache_misses := s.metrics.cache_misses + dm
          api_calls := s.metrics.api_calls + da
          batches_saved := s.metrics.batches_saved + ds } ∧
      (get_conversation_members enum rM now s ids).2.batch_size = s.batch_size := by
  by_cases hM : staleKeys s now (convKeys enum ids) = []
  · refine ⟨(getCachedBatch s now (convKeys enum ids)).1.length,
      (getCachedBatch s now (convKeys enum ids)).2.1.length, 0, 0, ?_, ?_⟩
    · rw [conv_hit_path enum rM now s ids hM, getCachedBatch_metrics]
      simp
    · rw [conv_hit_path enum rM now s ids hM]
      rfl
  · unfold staleKeys convKeys at hM
    have hch : (((((enum ids).map (fun cid => nsConv ++ cid))).filter
        (fun k => !isFresh s now k)).map (fun key => replaceAll nsConv [] key)) ≠ [] := by
      intro h
      exact hM (List.map_eq_nil_iff.mp h)
    simp only [get_conversation_members]
    rw [getCachedBatch_misses, list_isEmpty_false _ hch]
    simp only [Bool.false_eq_true, if_false, apply_ite ClientState.metrics,
      apply_ite ClientState.batch_size, setCachedBatch_metrics,
      setCachedBatch_batch_size, ite_self]
    exact ⟨_, _, _, _, rfl, rfl⟩

theorem user_delta (enum : List Ident → List Ident) (rU : Ident → Option UserData)
    (now : ℚ) (s : ClientState) (ids : List Ident) :
    ∃ dh dm da ds : Nat,
      (get_users_info enum rU now s ids).2.metrics =
        { cache_hits := s.metrics.cache_hits + dh
          cache_misses := s.metrics.cache_misses + dm
          api_calls := s.metrics.api_calls + da
          batches_saved := s.metrics.batches_saved + ds } ∧
      (get_users_info enum rU now s ids).2.batch_size = s.batch_size := by
  by_cases hM : staleKeys s now (userKeys enum ids) = []
  · refine ⟨(getCachedBatch s now (userKeys enum ids)).1.length,
      (getCachedBatch s now (userKeys enum ids)).2.1.length, 0, 0, ?_, ?_⟩
    · rw [user_hit_path enum rU now s ids hM, getCachedBatch_metrics]
      simp
    · rw [user_hit_path enum rU now s ids hM]
      rfl
  · unfold staleKeys userKeys at hM
    have hch : (((((enum ids).map (fun uid => nsUser ++ uid))).filter
        (fun k => !isFresh s now k)).map (fun key => replaceAll nsUser [] key)) ≠ [] := by
      intro h
      exact hM (List.map_eq_nil_iff.mp h)
    simp only [get_users_info]
    rw [getCachedBatch_misses, list_isEmpty_false _ hch]
    simp only [Bool.false_eq_true, if_false, apply_ite ClientState.metrics,
      apply_ite ClientState.batch_size, setCachedBatch_metrics,
      setCachedBatch_batch_size, ite_self]
    exact ⟨_, _, _, _, rfl, rfl⟩

theorem conv_total (enum : List Ident → List Ident) (henum : isSetEnum enum)
    (rM : Ident → Option (List Ident)) (now : ℚ) (s : ClientState) (ids : List Ident)
    (hbs : 1 ≤ s.batch_size) :
    (get_conversation_members enum rM now s ids).2.metrics.total_requests =
      s.metrics.total_requests + (enum ids).length := by
  have hpart := length_filter_partition (isFresh s now) (convKeys enum ids)
  have hkl : (convKeys enum ids).length = (enum ids).length := List.length_map _ _
  by_cases hM : staleKeys s now (convKeys enum ids) = []
  · rw [conv_hit_path enum rM now s ids hM]
    unfold CacheMetrics.total_requests
    rw [getCachedBatch_metrics]
    simp only
    rw [getCachedBatch_results s now _ (convKeys_nodup enum henum ids),
      getCachedBatch_misses, List.length_map]
    omega
  · rw [conv_metrics enum rM now s ids hbs (convKeys_nodup enum henum ids) hM]
    unfold CacheMetrics.total_requests
    simp only
    unfold staleKeys hitKeys at *
    omega

theorem user_total (enum : List Ident → List Ident) (henum : isSetEnum enum)
    (rU : Ident → Option UserData) (now : ℚ) (s : ClientState) (ids : List Ident)
    (hbs : 1 ≤ s.batch_size) :
    (get_users_info enum rU now s ids).2.metrics.total_requests =
      s.metrics.total_requests + (enum ids).length := by
  have hpart := length_filter_partition (isFresh s now) (userKeys enum ids)
  have hkl : (userKeys enum ids).length = (enum ids).length := List.length_map _ _
  by_cases hM : staleKeys s now (userKeys enum ids) = []
  · rw [user_hit_path enum rU now s ids hM]
    unfold CacheMetrics.total_requests
    rw [getCachedBatch_metrics]
    simp only
    rw [getCachedBatch_results s now _ (userKeys_nodup enum henum ids),
      getCachedBatch_misses, List.length_map]
    omega
  · rw [user_metrics enum rU now s ids hbs (userKeys_nodup enum henum ids) hM]
    unfold CacheMetrics.total_requests
    simp only
    unfold staleKeys hitKeys at *
    omega

theorem runOp_total (enum : List Ident → List Ident) (henum : isSetEnum enum)
    (s : ClientState) (op : FetchOp) (hbs : 1 ≤ s.batch_size) :
    (runOp enum s op).metrics.total_requests =
      s.metrics.total_requests + (enum (opIds op)).length ∧
    (runOp enum s op).batch_size = s.batch_size := by
  cases op with
  | members ids rM now =>
    exact ⟨conv_total enum henum rM now s ids hbs,
      ((conv_delta enum rM now s ids).choose_spec.choose_spec.choose_spec.choose_spec).2⟩
  | users ids rU now =>
    exact ⟨user_total enum henum rU now s ids hbs,
      ((user_delta enum rU now s ids).choose_spec.choose_spec.choose_spec.choose_spec).2⟩

theorem runOps_total (enum : List Ident → List Ident) (henum : isSetEnum enum) :
    ∀ (ops : List FetchOp) (s : ClientState), 1 ≤ s.batch_size →
      (runOps enum s ops).metrics.total_requests =
        s.metrics.total_requests + (ops.map (fun o => (enum (opIds o)).length)).sum := by
  intro ops
  induction ops with
  | nil =>
    intro s hbs
    simp [runOps]
  | cons op ops ih =>
    intro s hbs
    have h := runOp_total enum henum s op hbs
    unfold runOps at *
    simp only [List.foldl_cons, List.map_cons, List.sum_cons]
    rw [ih (runOp enum s op) (by rw [h.2]; exact hbs), h.1]
    omega

/-- C7: each of the four counters is non-decreasing across any fetch
operation; after any sequence of fetch operations `total_requests` equals
`cache_hits + cache_misses`, which equals the number of cache lookups
performed (one per unique requested identifier per operation); and the
hit rate is `cache_hits / (cache_hits + cache_misses)`, with `0` (the
"0.00%" branch) when no lookup has happened — no division by zero. -/
theorem claim_C7_theorem (enum : List Ident → List Ident) (henum : isSetEnum enum)
    (s : ClientState) (op : FetchOp) (ops : List FetchOp) (m : CacheMetrics)
    (hbs : 1 ≤ s.batch_size) :
    (s.metrics.cache_hits ≤ (runOp enum s op).metrics.cache_hits ∧
      s.metrics.cache_misses ≤ (runOp enum s op).metrics.cache_misses ∧
      s.metrics.api_calls ≤ (runOp enum s op).metrics.api_calls ∧
      s.metrics.batches_saved ≤ (runOp enum s op).metrics.batches_saved) ∧
    ((runOps enum s ops).metrics.total_requests =
      s.metrics.total_requests + (ops.map (fun o => (enum (opIds o)).length)).sum) ∧
    (m.total_requests = m.cache_hits + m.cache_misses) ∧
    (m.total_requests = 0 → m.cache_hit_rate = 0) ∧
    (0 < m.total_requests →
      m.cache_hit_rate = (m.cache_hits : ℚ) / ((m.cache_hits + m.cache_misses : Nat) : ℚ)) := by
  refine ⟨?_, runOps_total enum henum ops s hbs, rfl, ?_, ?_⟩
  · cases op with
    | members ids rM now =>
      rcases conv_delta enum rM now s ids with ⟨dh, dm, da, ds, hmet, _⟩
      simp only [runOp]
      rw [hmet]
      exact ⟨Nat.le_add_right _ _, Nat.le_add_right _ _, Nat.le_add_right _ _,
        Nat.le_add_right _ _⟩
    | users ids rU now =>
      rcases user_delta enum rU now s ids with ⟨dh, dm, da, ds, hmet, _⟩
      simp only [runOp]
      rw [hmet]
      exact ⟨Nat.le_add_right _ _, Nat.le_add_right _ _, Nat.le_add_right _ _,
        Nat.le_add_right _ _⟩
  · intro h0
    unfold CacheMetrics.cache_hit_rate
    rw [if_pos h0]
  · intro hpos
    unfold CacheMetrics.cache_hit_rate
    rw [if_neg (Nat.pos_iff_ne_zero.mp hpos)]
    rfl

theorem claim_C7_witness :
    (runOps (fun l => l.dedup) s50 [FetchOp.members [['a']] remoteFail 1]).metrics.total_requests =
      s50.metrics.total_requests +
        (([FetchOp.members [['a']] remoteFail 1]).map
          (fun o => ((opIds o).dedup).length)).sum :=
  (claim_C7_theorem (fun l => l.dedup) isSetEnum_dedup s50
    (FetchOp.members [['a']] remoteFail 1) [FetchOp.members [['a']] remoteFail 1]
    { cache_hits := 0, cache_misses := 0, api_calls := 0, batches_saved := 0 }
    (by norm_num [s50])).2.1

theorem dget_map_of_mem {β γ : Type} (kf : γ → Ident) (vf : γ → β) :
    ∀ (l : List γ) (x : γ), (l.map kf).Nodup → x ∈ l →
      dget (l.map (fun y => (kf y, vf y))) (kf x) = some (vf x) := by
  intro l
  induction l with
  | nil => intro x _ hx; cases hx
  | cons y l ih =>
    intro x hnd hx
    have hnd' : kf y ∉ l.map kf ∧ (l.map kf).Nodup := by
      rw [List.map_cons, List.nodup_cons] at hnd; exact hnd
    rw [List.map_cons, dget_cons]
    rcases List.mem_cons.mp hx with h | h
    · subst h
      simp
    · have hne : ¬ ((kf y, vf y).1 = kf x) := by
        intro he
        have he' : kf y = kf x := he
        rw [he'] at hnd'
        exact hnd'.1 (List.mem_map_of_mem kf h)
      rw [if_neg hne]
      exact ih x hnd'.2 h

theorem dget_map_none {β γ : Type} (kf : γ → Ident) (vf : γ → β) :
    ∀ (l : List γ) (k : Ident), (∀ x ∈ l, kf x ≠ k) →
      dget (l.map (fun y => (kf y, vf y))) k = none := by
  intro l
  induction l with
  | nil => intro k _; rfl
  | cons y l ih =>
    intro k hk
    rw [List.map_cons, dget_cons, if_neg (hk y (List.mem_cons_self y l))]
    exact ih k (fun x hx => hk x (List.mem_cons_of_mem _ hx))

theorem dget_none_of_not_mem_keys {β : Type} (l : List (Ident × β)) (k : Ident)
    (h : k ∉ l.map Prod.fst) : dget l k = none := by
  induction l with
  | nil => rfl
  | cons p l ih =>
    simp only [List.map_cons, List.mem_cons, not_or] at h
    rw [dget_cons, if_neg (fun he => h.1 he.symm)]
    exact ih h.2

theorem flatten_map_map {α β : Type} (f : α → β) (L : List (List α)) :
    (L.map (fun l => l.map f)).flatten = L.flatten.map f := by
  induction L with
  | nil => rfl
  | cons l L ih =>
    rw [List.map_cons, List.flatten_cons, List.flatten_cons, List.map_append, ih]

theorem flatten_filterMap {α β : Type} (f : α → Option β) (L : List (List α)) :
    (L.map (fun l => l.filterMap f)).flatten = L.flatten.filterMap f := by
  induction L with
  | nil => rfl
  | cons l L ih =>
    rw [List.map_cons, List.flatten_cons, List.flatten_cons, List.filterMap_append, ih]

/-- The member list a channel contributes to the merged result: the
remote response on success, `[]` when the call raised. -/
def mVal (remote : Ident → Option (List Ident)) (cid : Ident) : List Ident :=
  match remote cid with
  | some ms => ms
  | none => []

theorem map_fst_map_pair {β : Type} (g : Ident → β) (b : List Ident) :
    (b.map (fun i => (i, g i))).map (fun p : Ident × β => p.1) = b := by
  induction b with
  | nil => rfl
  | cons c bb ih =>
    simp only [List.map_cons]
    rw [ih]

theorem fetch_channel_members_eq (remote : Ident → Option (List Ident)) (cid : Ident) :
    fetch_channel_members remote cid = (cid, mVal remote cid) := by
  unfold fetch_channel_members mVal
  cases remote cid <;> rfl

theorem fetch_conv_batch_eq (remote : Ident → Option (List Ident)) (b : List Ident)
    (hnd : b.Nodup) :
    fetch_conversation_members_batch remote b =
      b.map (fun cid => (cid, mVal remote cid)) := by
  unfold fetch_conversation_members_batch
  rw [List.map_congr_left (fun cid _ => fetch_channel_members_eq remote cid)]
  have hk : (b.map (fun cid => (cid, mVal remote cid))).map
      (fun p : Ident × List Ident => p.1) = b := map_fst_map_pair _ b
  have h := foldl_dset_append (fun p : Ident × List Ident => p.1) (fun p => p.2)
    (b.map (fun cid => (cid, mVal remote cid))) []
    (by rw [hk]; exact hnd) (fun x _ => rfl)
  simpa using h

/-- The pairs a batch of user ids contributes to the merged result: one
per id whose remote fetch returned a (truthy) user payload. -/
def uPairs (remote : Ident → Option UserData) (b : List Ident) : List (Ident × UserData) :=
  b.filterMap (fun uid => (remote uid).map (fun u => (uid, u)))

theorem uPairs_keys (remote : Ident → Option UserData) (b : List Ident) :
    (uPairs remote b).map (fun p => p.1) = b.filter (fun uid => (remote uid).isSome) := by
  unfold uPairs
  induction b with
  | nil => rfl
  | cons uid b ih =>
    rw [List.filterMap_cons, List.filter_cons]
    cases h : remote uid with
    | none => simp [ih]
    | some u => simp [ih]

theorem foldl_opt_dset_eq (l : List (Ident × Option UserData))
    (d : List (Ident × UserData)) :
    l.foldl
      (fun d p =>
        match p.2 with
        | some u => dset d p.1 u
        | none => d) d =
    (l.filterMap (fun p => p.2.map (fun u => (p.1, u)))).foldl
      (fun d p => dset d p.1 p.2) d := by
  induction l generalizing d with
  | nil => rfl
  | cons p l ih =>
    cases h : p.2 with
    | none => simp [List.filterMap_cons, h, ih]
    | some u => simp [List.filterMap_cons, h, ih]

theorem fetch_users_batch_eq (remote : Ident → Option UserData) (b : List Ident)
    (hnd : b.Nodup) :
    fetch_users_info_batch remote b = uPairs remote b := by
  unfold fetch_users_info_batch
  rw [foldl_opt_dset_eq]
  have hfm : ((b.map (fetch_user_info remote)).filterMap
      (fun p => p.2.map (fun u => (p.1, u)))) = uPairs remote b := by
    rw [List.filterMap_map]
    rfl
  rw [hfm]
  have h := foldl_dset_append (fun p : Ident × UserData => p.1) (fun p => p.2)
    (uPairs remote b) []
    (by rw [uPairs_keys remote b]; exact hnd.filter _) (fun x _ => rfl)
  simpa using h

/-- The unique requested channel ids that miss the cache at `now`. -/
def convStale (enum : List Ident → List Ident) (s : ClientState) (now : ℚ)
    (ids : List Ident) : List Ident :=
  (enum ids).filter (fun i => !isFresh s now (nsConv ++ i))

/-- The unique requested channel ids that hit the cache at `now`. -/
def convHit (enum : List Ident → List Ident) (s : ClientState) (now : ℚ)
    (ids : List Ident) : List Ident :=
  (enum ids).filter (fun i => isFresh s now (nsConv ++ i))

/-- The unique requested user ids that miss the cache at `now`. -/
def userStale (enum : List Ident → List Ident) (s : ClientState) (now : ℚ)
    (ids : List Ident) : List Ident :=
  (enum ids).filter (fun i => !isFresh s now (nsUser ++ i))

/-- The unique requested user ids that hit the cache at `now`. -/
def userHit (enum : List Ident → List Ident) (s : ClientState) (now : ℚ)
    (ids : List Ident) : List Ident :=
  (enum ids).filter (fun i => isFresh s now (nsUser ++ i))

theorem nsConv_ne_nil : nsConv ≠ [] := by decide

theorem nsUser_ne_nil : nsUser ≠ [] := by decide

theorem conv_channels_eq (enum : List Ident → List Ident) (s : ClientState) (now : ℚ)
    (ids : List Ident) (hocc : ∀ j ∈ enum ids, hasOccur nsConv j = false) :
    ((((enum ids).map (fun cid => nsConv ++ cid)).filter (fun k => !isFresh s now k)).map
      (fun key => replaceAll nsConv [] key)) = convStale enum s now ids := by
  unfold convStale
  rw [List.filter_map, List.map_map]
  have hcong : ∀ x ∈ (enum ids).filter ((fun k => !isFresh s now k) ∘
      (fun cid => nsConv ++ cid)),
      ((fun key => replaceAll nsConv [] key) ∘ (fun cid => nsConv ++ cid)) x =
        (fun x => x) x := by
    intro x hx
    exact replaceAll_roundtrip nsConv x nsConv_ne_nil (hocc x (List.mem_of_mem_filter hx))
  rw [List.map_congr_left hcong]
  simp only [List.map_id_fun']
  rfl

theorem user_channels_eq (enum : List Ident → List Ident) (s : ClientState) (now : ℚ)
    (ids : List Ident) (hocc : ∀ j ∈ enum ids, hasOccur nsUser j = false) :
    ((((enum ids).map (fun uid => nsUser ++ uid)).filter (fun k => !isFresh s now k)).map
      (fun key => replaceAll nsUser [] key)) = userStale enum s now ids := by
  unfold userStale
  rw [List.filter_map, List.map_map]
  have hcong : ∀ x ∈ (enum ids).filter ((fun k => !isFresh s now k) ∘
      (fun uid => nsUser ++ uid)),
      ((fun key => replaceAll nsUser [] key) ∘ (fun uid => nsUser ++ uid)) x =
        (fun x => x) x := by
    intro x hx
    exact replaceAll_roundtrip nsUser x nsUser_ne_nil (hocc x (List.mem_of_mem_filter hx))
  rw [List.map_congr_left hcong]
  simp only [List.map_id_fun']
  rfl

theorem conv_hitkeys_eq (enum : List Ident → List Ident) (s : ClientState) (now : ℚ)
    (ids : List Ident) :
    ((enum ids).map (fun cid => nsConv ++ cid)).filter (isFresh s now) =
      (convHit enum s now ids).map (fun cid => nsConv ++ cid) := by
  unfold convHit
  rw [List.filter_map]
  rfl

theorem user_hitkeys_eq (enum : List Ident → List Ident) (s : ClientState) (now : ℚ)
    (ids : List Ident) :
    ((enum ids).map (fun uid => nsUser ++ uid)).filter (isFresh s now) =
      (userHit enum s now ids).map (fun uid => nsUser ++ uid) := by
  unfold userHit
  rw [List.filter_map]
  rfl

theorem getCachedBatch_mc (s : ClientState) (now : ℚ) (keys : List Ident) :
    (getCachedBatch s now keys).2.2.memory_cache = s.memory_cache := rfl

theorem getCachedBatch_ts (s : ClientState) (now : ℚ) (keys : List Ident) :
    (getCachedBatch s now keys).2.2.cache_timestamps = s.cache_timestamps := rfl

theorem getCachedBatch_ttl (s : ClientState) (now : ℚ) (keys : List Ident) :
    (getCachedBatch s now keys).2.2.cache_ttl = s.cache_ttl := rfl

theorem getCachedBatch_bs (s : ClientState) (now : ℚ) (keys : List Ident) :
    (getCachedBatch s now keys).2.2.batch_size = s.batch_size := rfl

/-- Full normal form of the miss path of `get_conversation_members` for
identifiers free of the namespace string: the returned map lists the cache
hits (under their original ids) followed by one entry per missed id —
`[]` for a failed call — and the cache gains one entry per missed id
(failed calls included), timestamped `now`; TTL and batch size are
untouched. -/
theorem conv_miss_full (enum : List Ident → List Ident) (henum : isSetEnum enum)
    (rM : Ident → Option (List Ident)) (now : ℚ) (s : ClientState) (ids : List Ident)
    (hbs : 1 ≤ s.batch_size)
    (hocc : ∀ j ∈ enum ids, hasOccur nsConv j = false)
    (hM : convStale enum s now ids ≠ []) :
    (get_conversation_members enum rM now s ids).1 =
      (convHit enum s now ids).map (fun i => (i, dget s.memory_cache (nsConv ++ i))) ++
        (convStale enum s now ids).map (fun i => (i, some (Sum.inl (mVal rM i)))) ∧
    (get_conversation_members enum rM now s ids).2.memory_cache =
      ((convStale enum s now ids).map
        (fun i => (nsConv ++ i, (Sum.inl (mVal rM i) : Val)))).foldl
        (fun d p => dset d p.1 p.2) s.memory_cache ∧
    (get_conversation_members enum rM now s ids).2.cache_timestamps =
      ((convStale enum s now ids).map
        (fun i => (nsConv ++ i, (Sum.inl (mVal rM i) : Val)))).foldl
        (fun d p => dset d p.1 now) s.cache_timestamps ∧
    (get_conversation_members enum rM now s ids).2.cache_ttl = s.cache_ttl ∧
    (get_conversation_members enum rM now s ids).2.batch_size = s.batch_size := by
  have hndu : (enum ids).Nodup := (henum ids).1
  have hstnd : (convStale enum s now ids).Nodup := hndu.filter _
  have hhtnd : (convHit enum s now ids).Nodup := hndu.filter _
  have hdisj : ∀ i ∈ convStale enum s now ids, i ∉ convHit enum s now ids := by
    intro i hi hhit
    have h1 := List.of_mem_filter hi
    have h2 := List.of_mem_filter hhit
    simp only at h1 h2
    rw [h2] at h1
    simp at h1
  have hknd : ((enum ids).map (fun cid => nsConv ++ cid)).Nodup :=
    convKeys_nodup enum henum ids
  simp only [get_conversation_members]
  rw [getCachedBatch_misses, conv_channels_eq enum s now ids hocc,
    list_isEmpty_false _ hM]
  simp only [Bool.false_eq_true, if_false]
  rw [getCachedBatch_results s now _ hknd,
    conv_hitkeys_eq, createBatches_eq_batchGo s.batch_size hbs]
  rw [List.map_congr_left (fun b _ => congrArg Prod.fst
    (execute_with_retry_pure_ok s.max_retries s.retry_delay
      (fetch_conversation_members_batch rM b) 0))]
  rw [List.filterMap_map]
  have hcomp : ((fun r : Except SlackErr (List (Ident × List Ident)) => r.toOption) ∘
      (fun b : List Ident => Except.ok (fetch_conversation_members_batch rM b))) =
      some ∘ (fun b : List Ident => fetch_conversation_members_batch rM b) := rfl
  rw [hcomp, List.filterMap_eq_map]
  rw [List.map_congr_left (fun b hb => fetch_conv_batch_eq rM b
    (hstnd.sublist (batchGo_mem_sublist _ _ _ _ hb)))]
  rw [flatten_map_map, batchGo_flatten _ (one_le_toNat_of_one_le hbs) _ _ le_rfl]
  have hfr : (((convStale enum s now ids).map (fun cid => (cid, mVal rM cid))).foldl
      (fun d p => dset d p.1 (some (Sum.inl p.2))) ([] : List (Ident × Option Val))) =
      (convStale enum s now ids).map
        (fun i => (i, (some (Sum.inl (mVal rM i)) : Option Val))) := by
    rw [foldl_dset_append (fun p : Ident × List Ident => p.1)
      (fun p => some (Sum.inl p.2)) _ []
      (by rw [map_fst_map_pair]; exact hstnd) (fun x _ => rfl)]
    rw [List.nil_append, List.map_map]
    rfl
  have hcekeys : (((convStale enum s now ids).map (fun cid => (cid, mVal rM cid))).map
      (fun p : Ident × List Ident => nsConv ++ p.1)) =
      (convStale enum s now ids).map (fun i => nsConv ++ i) := by
    rw [List.map_map]
    rfl
  have hce : (((convStale enum s now ids).map (fun cid => (cid, mVal rM cid))).foldl
      (fun d p => dset d (nsConv ++ p.1) (Sum.inl p.2)) ([] : List (Ident × Val))) =
      (convStale enum s now ids).map
        (fun i => (nsConv ++ i, (Sum.inl (mVal rM i) : Val))) := by
    rw [foldl_dset_append (fun p : Ident × List Ident => nsConv ++ p.1)
      (fun p => Sum.inl p.2) _ []
      (by rw [hcekeys]
          exact hstnd.map (fun a b h => List.append_cancel_left h))
      (fun x _ => rfl)]
    rw [List.nil_append, List.map_map]
    rfl
  rw [hfr, hce]
  have hcene : (convStale enum s now ids).map
      (fun i => (nsConv ++ i, (Sum.inl (mVal rM i) : Val))) ≠ [] := by
    intro h
    exact hM (List.map_eq_nil_iff.mp h)
  rw [list_isEmpty_false _ hcene]
  simp only [Bool.false_eq_true, if_false]
  have hfmt : format_conversation_results
      (((convHit enum s now ids).map (fun cid => nsConv ++ cid)).map
        (fun k => (k, dget s.memory_cache k))) =
      (convHit enum s now ids).map (fun i => (i, dget s.memory_cache (nsConv ++ i))) := by
    unfold format_conversation_results
    have hin : (((convHit enum s now ids).map (fun cid => nsConv ++ cid)).map
        (fun k => (k, dget s.memory_cache k))) =
        (convHit enum s now ids).map
          (fun i => (nsConv ++ i, dget s.memory_cache (nsConv ++ i))) := by
      rw [List.map_map]
      rfl
    rw [hin]
    have hsk : (((convHit enum s now ids).map
        (fun i => (nsConv ++ i, dget s.memory_cache (nsConv ++ i)))).map
        (fun p : Ident × Option Val => replaceAll nsConv [] p.1)) =
        convHit enum s now ids := by
      rw [List.map_map]
      have hcong : ∀ i ∈ convHit enum s now ids,
          ((fun p : Ident × Option Val => replaceAll nsConv [] p.1) ∘
            (fun i => (nsConv ++ i, dget s.memory_cache (nsConv ++ i)))) i =
          (fun x => x) i := by
        intro i hi
        exact replaceAll_roundtrip nsConv i nsConv_ne_nil
          (hocc i (List.mem_of_mem_filter hi))
      rw [List.map_congr_left hcong]
      simp [List.map_id_fun']
    rw [foldl_dset_append (fun p : Ident × Option Val => replaceAll nsConv [] p.1)
      (fun p => p.2) _ []
      (by rw [hsk]; exact hhtnd) (fun x _ => rfl)]
    rw [List.nil_append, List.map_map]
    apply List.map_congr_left
    intro i hi
    have hrt : replaceAll nsConv [] (nsConv ++ i) = i :=
      replaceAll_roundtrip nsConv i nsConv_ne_nil (hocc i (List.mem_of_mem_filter hi))
    show (replaceAll nsConv [] (nsConv ++ i), dget s.memory_cache (nsConv ++ i)) = _
    rw [hrt]
  rw [hfmt]
  have hmerge : (((convStale enum s now ids).map
      (fun i => (i, some (Sum.inl (mVal rM i))))).foldl (fun d p => dset d p.1 p.2)
      ((convHit enum s now ids).map
        (fun i => (i, dget s.memory_cache (nsConv ++ i))))) =
      (convHit enum s now ids).map (fun i => (i, dget s.memory_cache (nsConv ++ i))) ++
        (convStale enum s now ids).map (fun i => (i, some (Sum.inl (mVal rM i)))) := by
    rw [foldl_dset_append (fun p : Ident × Option Val => p.1) (fun p => p.2) _ _
      (by rw [map_fst_map_pair]; exact hstnd)
      ?_]
    · rw [List.map_map]
      have : ∀ i ∈ convStale enum s now ids,
          ((fun p : Ident × Option Val => (p.1, p.2)) ∘
            (fun i => (i, some (Sum.inl (mVal rM i))))) i =
          (fun i => ((i : Ident), some (Sum.inl (mVal rM i)))) i := fun i _ => rfl
      rw [List.map_congr_left this]
    · intro x hx
      rcases List.mem_map.mp hx with ⟨i, hi, hxi⟩
      subst hxi
      refine dget_map_none (fun j : Ident => j)
        (fun j => dget s.memory_cache (nsConv ++ j)) _ _ ?_
      intro j hj hji
      have hji' : j = i := hji
      exact hdisj i hi (hji' ▸ hj)
  rw [hmerge]
  exact ⟨rfl, rfl, rfl, rfl, rfl⟩

theorem uPairs_flatten (rU : Ident → Option UserData) (L : List (List Ident)) :
    (L.map (fun b => uPairs rU b)).flatten = uPairs rU L.flatten := by
  simp only [uPairs]
  exact flatten_filterMap _ L

theorem uPairs_mem_keys {rU : Ident → Option UserData} {b : List Ident}
    {p : Ident × UserData} (hp : p ∈ uPairs rU b) : p.1 ∈ b := by
  have h1 : p.1 ∈ (uPairs rU b).map (fun q => q.1) :=
    List.mem_map_of_mem (fun q => q.1) hp
  rw [uPairs_keys] at h1
  exact List.mem_of_mem_filter h1

theorem uPairs_keys_nodup (rU : Ident → Option UserData) (b : List Ident)
    (hnd : b.Nodup) : ((uPairs rU b).map (fun q => q.1)).Nodup := by
  rw [uPairs_keys]
  exact hnd.filter _

/-- Full normal form of the miss path of `get_users_info` for identifiers
free of the namespace string: the returned map lists the cache hits
followed by one entry per missed id whose remote fetch returned a user
payload — failed ids are absent — and the cache gains one entry per
successful missed id only, timestamped `now`. -/
theorem user_miss_full (enum : List Ident → List Ident) (henum : isSetEnum enum)
    (rU : Ident → Option UserData) (now : ℚ) (s : ClientState) (ids : List Ident)
    (hbs : 1 ≤ s.batch_size)
    (hocc : ∀ j ∈ enum ids, hasOccur nsUser j = false)
    (hM : userStale enum s now ids ≠ []) :
    (get_users_info enum rU now s ids).1 =
      (userHit enum s now ids).map (fun i => (i, dget s.memory_cache (nsUser ++ i))) ++
        (uPairs rU (userStale enum s now ids)).map
          (fun p => (p.1, (some (Sum.inr p.2) : Option Val))) ∧
    (get_users_info enum rU now s ids).2.memory_cache =
      ((uPairs rU (userStale enum s now ids)).map
        (fun p => (nsUser ++ p.1, (Sum.inr p.2 : Val)))).foldl
        (fun d p => dset d p.1 p.2) s.memory_cache ∧
    (get_users_info enum rU now s ids).2.cache_timestamps =
      ((uPairs rU (userStale enum s now ids)).map
        (fun p => (nsUser ++ p.1, (Sum.inr p.2 : Val)))).foldl
        (fun d p => dset d p.1 now) s.cache_timestamps ∧
    (get_users_info enum rU now s ids).2.cache_ttl = s.cache_ttl ∧
    (get_users_info enum rU now s ids).2.batch_size = s.batch_size := by
  have hndu : (enum ids).Nodup := (henum ids).1
  have hstnd : (userStale enum s now ids).Nodup := hndu.filter _
  have hhtnd : (userHit enum s now ids).Nodup := hndu.filter _
  have hdisj : ∀ i ∈ userStale enum s now ids, i ∉ userHit enum s now ids := by
    intro i hi hhit
    have h1 := List.of_mem_filter hi
    have h2 := List.of_mem_filter hhit
    simp only at h1 h2
    rw [h2] at h1
    simp at h1
  have hknd : ((enum ids).map (fun uid => nsUser ++ uid)).Nodup :=
    userKeys_nodup enum henum ids
  simp only [get_users_info]
  rw [getCachedBatch_misses, user_channels_eq enum s now ids hocc,
    list_isEmpty_false _ hM]
  simp only [Bool.false_eq_true, if_false]
  rw [getCachedBatch_results s now _ hknd,
    user_hitkeys_eq, createBatches_eq_batchGo s.batch_size hbs]
  rw [List.map_congr_left (fun b _ => congrArg Prod.fst
    (execute_with_retry_pure_ok s.max_retries s.retry_delay
      (fetch_users_info_batch rU b) 0))]
  rw [List.filterMap_map]
  have hcomp : ((fun r : Except SlackErr (List (Ident × UserData)) => r.toOption) ∘
      (fun b : List Ident => Except.ok (fetch_users_info_batch rU b))) =
      some ∘ (fun b : List Ident => fetch_users_info_batch rU b) := rfl
  rw [hcomp, List.filterMap_eq_map]
  rw [List.map_congr_left (fun b hb => fetch_users_batch_eq rU b
    (hstnd.sublist (batchGo_mem_sublist _ _ _ _ hb)))]
  rw [uPairs_flatten, batchGo_flatten _ (one_le_toNat_of_one_le hbs) _ _ le_rfl]
  have hfr : ((uPairs rU (userStale enum s now ids)).foldl
      (fun d p => dset d p.1 (some (Sum.inr p.2))) ([] : List (Ident × Option Val))) =
      (uPairs rU (userStale enum s now ids)).map
        (fun p => (p.1, (some (Sum.inr p.2) : Option Val))) := by
    rw [foldl_dset_append (fun p : Ident × UserData => p.1)
      (fun p => some (Sum.inr p.2)) _ []
      (uPairs_keys_nodup rU _ hstnd) (fun x _ => rfl)]
    rw [List.nil_append]
  have hcekeys : ((uPairs rU (userStale enum s now ids)).map
      (fun p : Ident × UserData => nsUser ++ p.1)) =
      ((uPairs rU (userStale enum s now ids)).map (fun q => q.1)).map
        (fun i => nsUser ++ i) := by
    rw [List.map_map]
    rfl
  have hce : ((uPairs rU (userStale enum s now ids)).foldl
      (fun d p => dset d (nsUser ++ p.1) (Sum.inr p.2)) ([] : List (Ident × Val))) =
      (uPairs rU (userStale enum s now ids)).map
        (fun p => (nsUser ++ p.1, (Sum.inr p.2 : Val))) := by
    rw [foldl_dset_append (fun p : Ident × UserData => nsUser ++ p.1)
      (fun p => Sum.inr p.2) _ []
      (by rw [hcekeys]
          exact (uPairs_keys_nodup rU _ hstnd).map
            (fun a b h => List.append_cancel_left h))
      (fun x _ => rfl)]
    rw [List.nil_append]
  rw [hfr, hce]
  have hfmt : format_user_results
      (((userHit enum s now ids).map (fun uid => nsUser ++ uid)).map
        (fun k => (k, dget s.memory_cache k))) =
      (userHit enum s now ids).map (fun i => (i, dget s.memory_cache (nsUser ++ i))) := by
    unfold format_user_results
    have hin : (((userHit enum s now ids).map (fun uid => nsUser ++ uid)).map
        (fun k => (k, dget s.memory_cache k))) =
        (userHit enum s now ids).map
          (fun i => (nsUser ++ i, dget s.memory_cache (nsUser ++ i))) := by
      rw [List.map_map]
      rfl
    rw [hin]
    have hsk : (((userHit enum s now ids).map
        (fun i => (nsUser ++ i, dget s.memory_cache (nsUser ++ i)))).map
        (fun p : Ident × Option Val => replaceAll nsUser [] p.1)) =
        userHit enum s now ids := by
      rw [List.map_map]
      have hcong : ∀ i ∈ userHit enum s now ids,
          ((fun p : Ident × Option Val => replaceAll nsUser [] p.1) ∘
            (fun i => (nsUser ++ i, dget s.memory_cache (nsUser ++ i)))) i =
          (fun x => x) i := by
        intro i hi
        exact replaceAll_roundtrip nsUser i nsUser_ne_nil
          (hocc i (List.mem_of_mem_filter hi))
      rw [List.map_congr_left hcong]
      simp [List.map_id_fun']
    rw [foldl_dset_append (fun p : Ident × Option Val => replaceAll nsUser [] p.1)
      (fun p => p.2) _ []
      (by rw [hsk]; exact hhtnd) (fun x _ => rfl)]
    rw [List.nil_append, List.map_map]
    apply List.map_congr_left
    intro i hi
    have hrt : replaceAll nsUser [] (nsUser ++ i) = i :=
      replaceAll_roundtrip nsUser i nsUser_ne_nil (hocc i (List.mem_of_mem_filter hi))
    show (replaceAll nsUser [] (nsUser ++ i), dget s.memory_cache (nsUser ++ i)) = _
    rw [hrt]
  rw [hfmt]
  have hmerge : (((uPairs rU (userStale enum s now ids)).map
      (fun p => (p.1, (some (Sum.inr p.2) : Option Val)))).foldl
      (fun d p => dset d p.1 p.2)
      ((userHit enum s now ids).map
        (fun i => (i, dget s.memory_cache (nsUser ++ i))))) =
      (userHit enum s now ids).map (fun i => (i, dget s.memory_cache (nsUser ++ i))) ++
        (uPairs rU (userStale enum s now ids)).map
          (fun p => (p.1, (some (Sum.inr p.2) : Option Val))) := by
    have hkk : (((uPairs rU (userStale enum s now ids)).map
        (fun p => (p.1, (some (Sum.inr p.2) : Option Val)))).map
        (fun q : Ident × Option Val => q.1)) =
        ((uPairs rU (userStale enum s now ids)).map (fun q => q.1)) := by
      rw [List.map_map]
      rfl
    rw [foldl_dset_append (fun q : Ident × Option Val => q.1) (fun q => q.2) _ _
      (by rw [hkk]; exact uPairs_keys_nodup rU _ hstnd)
      ?_]
    · rw [List.map_map]
      have : ∀ p ∈ uPairs rU (userStale enum s now ids),
          ((fun q : Ident × Option Val => (q.1, q.2)) ∘
            (fun p : Ident × UserData => (p.1, (some (Sum.inr p.2) : Option Val)))) p =
          (fun p : Ident × UserData => (p.1, (some (Sum.inr p.2) : Option Val))) p :=
        fun p _ => rfl
      rw [List.map_congr_left this]
    · intro x hx
      rcases List.mem_map.mp hx with ⟨p, hp, hxp⟩
      subst hxp
      refine dget_map_none (fun j : Ident => j)
        (fun j => dget s.memory_cache (nsUser ++ j)) _ _ ?_
      intro j hj hji
      have hji' : j = p.1 := hji
      exact hdisj p.1 (uPairs_mem_keys hp) (hji' ▸ hj)
  rw [hmerge]
  refine ⟨rfl, ?_, ?_, ?_, ?_⟩
  · by_cases hc : ((uPairs rU (userStale enum s now ids)).map
        (fun p => (nsUser ++ p.1, (Sum.inr p.2 : Val)))).isEmpty = true
    · rw [if_pos hc]
      have hnil : ((uPairs rU (userStale enum s now ids)).map
          (fun p => (nsUser ++ p.1, (Sum.inr p.2 : Val)))) = [] := by
        cases h : ((uPairs rU (userStale enum s now ids)).map
            (fun p => (nsUser ++ p.1, (Sum.inr p.2 : Val)))) with
        | nil => rfl
        | cons a l => rw [h] at hc; exact absurd hc (by simp [List.isEmpty])
      rw [hnil]
      rfl
    · rw [if_neg hc]
      rfl
  · by_cases hc : ((uPairs rU (userStale enum s now ids)).map
        (fun p => (nsUser ++ p.1, (Sum.inr p.2 : Val)))).isEmpty = true
    · rw [if_pos hc]
      have hnil : ((uPairs rU (userStale enum s now ids)).map
          (fun p => (nsUser ++ p.1, (Sum.inr p.2 : Val)))) = [] := by
        cases h : ((uPairs rU (userStale enum s now ids)).map
            (fun p => (nsUser ++ p.1, (Sum.inr p.2 : Val)))) with
        | nil => rfl
        | cons a l => rw [h] at hc; exact absurd hc (by simp [List.isEmpty])
      rw [hnil]
      rfl
    · rw [if_neg hc]
      rfl
  · by_cases hc : ((uPairs rU (userStale enum s now ids)).map
        (fun p => (nsUser ++ p.1, (Sum.inr p.2 : Val)))).isEmpty = true
    · rw [if_pos hc]
      rfl
    · rw [if_neg hc]
      rfl
  · by_cases hc : ((uPairs rU (userStale enum s now ids)).map
        (fun p => (nsUser ++ p.1, (Sum.inr p.2 : Val)))).isEmpty = true
    · rw [if_pos hc]
      rfl
    · rw [if_neg hc]
      rfl

theorem uPairs_spec {rU : Ident → Option UserData} {b : List Ident}
    {p : Ident × UserData} (hp : p ∈ uPairs rU b) : rU p.1 = some p.2 := by
  unfold uPairs at hp
  rcases List.mem_filterMap.mp hp with ⟨a, _, ha⟩
  cases h : rU a with
  | none => rw [h] at ha; cases ha
  | some u =>
    rw [h] at ha
    simp only [Option.map_some'] at ha
    cases ha
    exact h

/-- C1 amended: a terminally failing identifier behaves differently in the
two fetchers.  In `get_users_info` it is absent from the returned map and
no cache entry is created for it (the cache binding for its key is
untouched).  In `get_conversation_members`, however, the per-channel
exception handler converts the failure into `(channel_id, [])`: the
identifier is present in the returned map bound to the empty member list,
and a cache entry holding `[]` IS created for it. -/
theorem claim_C1_amended_theorem (enum : List Ident → List Ident)
    (henum : isSetEnum enum) (s : ClientState) (now : ℚ) (ids : List Ident) (k : Ident)
    (rM : Ident → Option (List Ident)) (rU : Ident → Option UserData)
    (hbs : 1 ≤ s.batch_size)
    (hk : k ∈ ids)
    (hoccC : ∀ j ∈ enum ids, hasOccur nsConv j = false)
    (hoccU : ∀ j ∈ enum ids, hasOccur nsUser j = false)
    (hfc : isFresh s now (nsConv ++ k) = false)
    (hfu : isFresh s now (nsUser ++ k) = false)
    (hrM : rM k = none) (hrU : rU k = none) :
    (dget (get_conversation_members enum rM now s ids).1 k = some (some (Sum.inl [])) ∧
      dget (get_conversation_members enum rM now s ids).2.memory_cache (nsConv ++ k) =
        some (Sum.inl [])) ∧
    (dget (get_users_info enum rU now s ids).1 k = none ∧
      dget (get_users_info enum rU now s ids).2.memory_cache (nsUser ++ k) =
        dget s.memory_cache (nsUser ++ k)) := by
  have hkenum : k ∈ enum ids := ((henum ids).2 k).mpr hk
  have hmval : mVal rM k = [] := by
    unfold mVal
    rw [hrM]
  constructor
  · have hkst : k ∈ convStale enum s now ids :=
      List.mem_filter.mpr ⟨hkenum, by rw [hfc]; rfl⟩
    have hMne : convStale enum s now ids ≠ [] := List.ne_nil_of_mem hkst
    obtain ⟨hres, hmc, _, _, _⟩ :=
      conv_miss_full enum henum rM now s ids hbs hoccC hMne
    have hstnd : (convStale enum s now ids).Nodup := (henum ids).1.filter _
    have hdisj : ∀ j ∈ convHit enum s now ids, j ≠ k := by
      intro j hj hjk
      subst hjk
      have h1 := List.of_mem_filter hkst
      have h2 := List.of_mem_filter hj
      simp only at h1 h2
      rw [h2] at h1
      simp at h1
    constructor
    · rw [hres, dget_append]
      have h1 : dget ((convHit enum s now ids).map
          (fun i => (i, dget s.memory_cache (nsConv ++ i)))) k = none :=
        dget_map_none (fun j : Ident => j)
          (fun j => dget s.memory_cache (nsConv ++ j)) _ _ hdisj
      have h2 : dget ((convStale enum s now ids).map
          (fun i => (i, (some (Sum.inl (mVal rM i)) : Option Val)))) k =
          some (some (Sum.inl (mVal rM k))) :=
        dget_map_of_mem (fun j : Ident => j)
          (fun j => (some (Sum.inl (mVal rM j)) : Option Val)) _ k
          (by simpa using hstnd) hkst
      rw [h1, h2, hmval]
      rfl
    · rw [hmc]
      have hkeynd : (((convStale enum s now ids).map
          (fun i => (nsConv ++ i, (Sum.inl (mVal rM i) : Val)))).map
          (fun p => p.1)).Nodup := by
        have he : (((convStale enum s now ids).map
            (fun i => (nsConv ++ i, (Sum.inl (mVal rM i) : Val)))).map
            (fun p => p.1)) = (convStale enum s now ids).map (fun i => nsConv ++ i) := by
          rw [List.map_map]
          rfl
        rw [he]
        exact hstnd.map (fun a b h => List.append_cancel_left h)
      have hmem : ((nsConv ++ k, (Sum.inl (mVal rM k) : Val))) ∈
          (convStale enum s now ids).map
            (fun i => (nsConv ++ i, (Sum.inl (mVal rM i) : Val))) :=
        List.mem_map_of_mem _ hkst
      have := dget_foldl_dset_mem (fun p : Ident × Val => p.1) (fun p => p.2)
        ((convStale enum s now ids).map
          (fun i => (nsConv ++ i, (Sum.inl (mVal rM i) : Val))))
        s.memory_cache (nsConv ++ k, (Sum.inl (mVal rM k) : Val)) hkeynd hmem
      rw [hmval] at this
      exact this
  · have hkst : k ∈ userStale enum s now ids :=
      List.mem_filter.mpr ⟨hkenum, by rw [hfu]; rfl⟩
    have hMne : userStale enum s now ids ≠ [] := List.ne_nil_of_mem hkst
    obtain ⟨hres, hmc, _, _, _⟩ :=
      user_miss_full enum henum rU now s ids hbs hoccU hMne
    have hdisj : ∀ j ∈ userHit enum s now ids, j ≠ k := by
      intro j hj hjk
      subst hjk
      have h1 := List.of_mem_filter hkst
      have h2 := List.of_mem_filter hj
      simp only at h1 h2
      rw [h2] at h1
      simp at h1
    have hnotk : ∀ p ∈ uPairs rU (userStale enum s now ids), p.1 ≠ k := by
      intro p hp hpk
      have := uPairs_spec hp
      rw [hpk, hrU] at this
      cases this
    constructor
    · rw [hres, dget_append]
      have h1 : dget ((userHit enum s now ids).map
          (fun i => (i, dget s.memory_cache (nsUser ++ i)))) k = none :=
        dget_map_none (fun j : Ident => j)
          (fun j => dget s.memory_cache (nsUser ++ j)) _ _ hdisj
      have h2 : dget ((uPairs rU (userStale enum s now ids)).map
          (fun p => (p.1, (some (Sum.inr p.2) : Option Val)))) k = none :=
        dget_map_none (fun p : Ident × UserData => p.1)
          (fun p => (some (Sum.inr p.2) : Option Val)) _ _ hnotk
      rw [h1, h2]
      rfl
    · rw [hmc]
      refine dget_foldl_dset_not_mem (fun p : Ident × Val => p.1) (fun p => p.2)
        _ _ _ ?_
      intro hmemk
      rcases List.mem_map.mp hmemk with ⟨q, hq, hq1⟩
      rcases List.mem_map.mp hq with ⟨p, hp, hpq⟩
      subst hpq
      have : nsUser ++ p.1 = nsUser ++ k := hq1
      exact hnotk p hp (List.append_cancel_left this)

theorem claim_C1_amended_witness :
    dget (get_users_info (fun l => l.dedup) remoteUFail 1 s50 [['a']]).1 ['a'] = none :=
  ((claim_C1_amended_theorem (fun l => l.dedup) isSetEnum_dedup s50 1 [['a']] ['a']
    remoteFail remoteUFail (by norm_num [s50]) (by decide) (by decide) (by decide)
    (by decide) (by decide) rfl rfl).2).1

theorem map_pair_eta {β : Type} (l : List (Ident × β)) :
    l.map (fun p => (p.1, p.2)) = l := by
  induction l with
  | nil => rfl
  | cons p l ih => rw [List.map_cons, ih]

/-- Formatting a hit dict whose ids are namespace-free recovers the ids. -/
theorem format_conv_map (mc : List (Ident × Val)) (l : List Ident) (hl : l.Nodup)
    (hocc : ∀ j ∈ l, hasOccur nsConv j = false) :
    format_conversation_results ((l.map (fun cid => nsConv ++ cid)).map
      (fun k => (k, dget mc k))) =
    l.map (fun i => (i, dget mc (nsConv ++ i))) := by
  unfold format_conversation_results
  have hin : ((l.map (fun cid => nsConv ++ cid)).map (fun k => (k, dget mc k))) =
      l.map (fun i => (nsConv ++ i, dget mc (nsConv ++ i))) := by
    rw [List.map_map]
    rfl
  rw [hin]
  have hsk : ((l.map (fun i => (nsConv ++ i, dget mc (nsConv ++ i)))).map
      (fun p : Ident × Option Val => replaceAll nsConv [] p.1)) = l := by
    rw [List.map_map]
    have hcong : ∀ i ∈ l,
        ((fun p : Ident × Option Val => replaceAll nsConv [] p.1) ∘
          (fun i => (nsConv ++ i, dget mc (nsConv ++ i)))) i = (fun x => x) i :=
      fun i hi => replaceAll_roundtrip nsConv i nsConv_ne_nil (hocc i hi)
    rw [List.map_congr_left hcong]
    simp [List.map_id_fun']
  rw [foldl_dset_append (fun p : Ident × Option Val => replaceAll nsConv [] p.1)
    (fun p => p.2) _ [] (by rw [hsk]; exact hl) (fun x _ => rfl)]
  rw [List.nil_append, List.map_map]
  apply List.map_congr_left
  intro i hi
  have hrt : replaceAll nsConv [] (nsConv ++ i) = i :=
    replaceAll_roundtrip nsConv i nsConv_ne_nil (hocc i hi)
  show (replaceAll nsConv [] (nsConv ++ i), dget mc (nsConv ++ i)) = _
  rw [hrt]

theorem format_user_map (mc : List (Ident × Val)) (l : List Ident) (hl : l.Nodup)
    (hocc : ∀ j ∈ l, hasOccur nsUser j = false) :
    format_user_results ((l.map (fun uid => nsUser ++ uid)).map
      (fun k => (k, dget mc k))) =
    l.map (fun i => (i, dget mc (nsUser ++ i))) := by
  unfold format_user_results
  have hin : ((l.map (fun uid => nsUser ++ uid)).map (fun k => (k, dget mc k))) =
      l.map (fun i => (nsUser ++ i, dget mc (nsUser ++ i))) := by
    rw [List.map_map]
    rfl
  rw [hin]
  have hsk : ((l.map (fun i => (nsUser ++ i, dget mc (nsUser ++ i)))).map
      (fun p : Ident × Option Val => replaceAll nsUser [] p.1)) = l := by
    rw [List.map_map]
    have hcong : ∀ i ∈ l,
        ((fun p : Ident × Option Val => replaceAll nsUser [] p.1) ∘
          (fun i => (nsUser ++ i, dget mc (nsUser ++ i)))) i = (fun x => x) i :=
      fun i hi => replaceAll_roundtrip nsUser i nsUser_ne_nil (hocc i hi)
    rw [List.map_congr_left hcong]
    simp [List.map_id_fun']
  rw [foldl_dset_append (fun p : Ident × Option Val => replaceAll nsUser [] p.1)
    (fun p => p.2) _ [] (by rw [hsk]; exact hl) (fun x _ => rfl)]
  rw [List.nil_append, List.map_map]
  apply List.map_congr_left
  intro i hi
  have hrt : replaceAll nsUser [] (nsUser ++ i) = i :=
    replaceAll_roundtrip nsUser i nsUser_ne_nil (hocc i hi)
  show (replaceAll nsUser [] (nsUser ++ i), dget mc (nsUser ++ i)) = _
  rw [hrt]

/-- The user payload actually fetched (with a dummy default for the
impossible failed case when full success is assumed). -/
def uValD (remote : Ident → Option UserData) (uid : Ident) : UserData :=
  (remote uid).getD { raw := [] }

theorem uPairs_all_some (rU : Ident → Option UserData) (l : List Ident)
    (h : ∀ i ∈ l, (rU i).isSome = true) :
    uPairs rU l = l.map (fun i => (i, uValD rU i)) := by
  unfold uPairs
  induction l with
  | nil => rfl
  | cons i l ih =>
    rw [List.filterMap_cons, List.map_cons]
    cases hi : rU i with
    | none =>
      have := h i (List.mem_cons_self i l)
      rw [hi] at this
      cases this
    | some u =>
      simp only [hi, Option.map_some']
      rw [ih (fun j hj => h j (List.mem_cons_of_mem _ hj))]
      unfold uValD
      rw [hi]
      rfl

/-- After a first `get_conversation_members` call on an empty cache, an
immediate second call with the same identifiers (within TTL) is answered
entirely from the cache: it returns the same map (for ANY remote oracle,
i.e. without consulting the remote at all), bumps `cache_hits` by the
number of unique identifiers, and leaves `cache_misses` and `api_calls`
unchanged. -/
theorem conv_second_call (enum : List Ident → List Ident) (henum : isSetEnum enum)
    (s : ClientState) (now nowB : ℚ) (ids : List Ident)
    (rM rM2 : Ident → Option (List Ident))
    (hbs : 1 ≤ s.batch_size)
    (hmc0 : s.memory_cache = []) (hts0 : s.cache_timestamps = [])
    (hne : ids ≠ [])
    (hnow : 0 < now) (hdel : nowB - now ≤ s.cache_ttl)
    (hocc : ∀ j ∈ enum ids, hasOccur nsConv j = false) :
    (get_conversation_members enum rM2 nowB
        (get_conversation_members enum rM now s ids).2 ids).1 =
      (get_conversation_members enum rM now s ids).1 ∧
    (get_conversation_members enum rM2 nowB
        (get_conversation_members enum rM now s ids).2 ids).2.metrics.cache_hits =
      (get_conversation_members enum rM now s ids).2.metrics.cache_hits +
        (enum ids).length ∧
    (get_conversation_members enum rM2 nowB
        (get_conversation_members enum rM now s ids).2 ids).2.metrics.cache_misses =
      (get_conversation_members enum rM now s ids).2.metrics.cache_misses ∧
    (get_conversation_members enum rM2 nowB
        (get_conversation_members enum rM now s ids).2 ids).2.metrics.api_calls =
      (get_conversation_members enum rM now s ids).2.metrics.api_calls := by
  have hndu : (enum ids).Nodup := (henum ids).1
  have hstale_all : convStale enum s now ids = enum ids := by
    unfold convStale
    refine List.filter_eq_self.mpr ?_
    intro a ha
    have hf : isFresh s now (nsConv ++ a) = false := by
      unfold isFresh
      rw [hts0]
      rfl
    rw [hf]
    rfl
  have hhit_none : convHit enum s now ids = [] := by
    unfold convHit
    refine List.filter_eq_nil_iff.mpr ?_
    intro a ha
    have hf : isFresh s now (nsConv ++ a) = false := by
      unfold isFresh
      rw [hts0]
      rfl
    simp [hf]
  have henumne : enum ids ≠ [] := by
    obtain ⟨x, hx⟩ := List.exists_mem_of_ne_nil ids hne
    exact List.ne_nil_of_mem (((henum ids).2 x).mpr hx)
  have hMne : convStale enum s now ids ≠ [] := by
    rw [hstale_all]
    exact henumne
  obtain ⟨hres1, hmc1, hts1, httl1, hbs1⟩ :=
    conv_miss_full enum henum rM now s ids hbs hocc hMne
  rw [hstale_all, hhit_none] at hres1
  simp only [List.map_nil, List.nil_append] at hres1
  rw [hstale_all, hmc0] at hmc1
  rw [hstale_all, hts0] at hts1
  have hEnd : (((enum ids).map (fun i => (nsConv ++ i, (Sum.inl (mVal rM i) : Val)))).map
      (fun p : Ident × Val => p.1)).Nodup := by
    have he : (((enum ids).map (fun i => (nsConv ++ i, (Sum.inl (mVal rM i) : Val)))).map
        (fun p : Ident × Val => p.1)) = (enum ids).map (fun i => nsConv ++ i) := by
      rw [List.map_map]
      rfl
    rw [he]
    exact hndu.map (fun a b h => List.append_cancel_left h)
  have hmc1' : (get_conversation_members enum rM now s ids).2.memory_cache =
      (enum ids).map (fun i => (nsConv ++ i, (Sum.inl (mVal rM i) : Val))) := by
    rw [hmc1, foldl_dset_append (fun p : Ident × Val => p.1) (fun p => p.2) _ []
      hEnd (fun x _ => rfl)]
    rw [List.nil_append, map_pair_eta]
  have hts1' : (get_conversation_members enum rM now s ids).2.cache_timestamps =
      (enum ids).map (fun i => (nsConv ++ i, now)) := by
    rw [hts1, foldl_dset_append (fun p : Ident × Val => p.1) (fun _ => now) _ []
      hEnd (fun x _ => rfl)]
    rw [List.nil_append, List.map_map]
    rfl
  have htsnd : (((enum ids).map (fun i => (nsConv ++ i, (now : ℚ)))).map
      (fun p : Ident × ℚ => p.1)).Nodup := by
    have he : (((enum ids).map (fun i => (nsConv ++ i, (now : ℚ)))).map
        (fun p : Ident × ℚ => p.1)) = (enum ids).map (fun i => nsConv ++ i) := by
      rw [List.map_map]
      rfl
    rw [he]
    exact hndu.map (fun a b h => List.append_cancel_left h)
  have hfresh2 : ∀ j ∈ enum ids,
      isFresh (get_conversation_members enum rM now s ids).2 nowB (nsConv ++ j) = true := by
    intro j hj
    unfold isFresh
    rw [hts1']
    have hget := dget_map_of_mem (fun i : Ident => nsConv ++ i) (fun _ => (now : ℚ))
      (enum ids) j (by
        have he : ((enum ids).map (fun i : Ident => nsConv ++ i)).Nodup :=
          hndu.map (fun a b h => List.append_cancel_left h)
        exact he) hj
    rw [hget]
    show decide (now ≠ 0 ∧ nowB - now ≤
      (get_conversation_members enum rM now s ids).2.cache_ttl) = true
    rw [httl1]
    exact decide_eq_true ⟨ne_of_gt hnow, hdel⟩
  have hstale2 : (staleKeys (get_conversation_members enum rM now s ids).2 nowB
      (convKeys enum ids)) = [] := by
    unfold staleKeys convKeys
    refine List.filter_eq_nil_iff.mpr ?_
    intro k hk2
    rcases List.mem_map.mp hk2 with ⟨j, hj, hjk⟩
    subst hjk
    simp [hfresh2 j hj]
  have hsecond := conv_hit_path enum rM2 nowB
    (get_conversation_members enum rM now s ids).2 ids hstale2
  have hkeysnd : (convKeys enum ids).Nodup := convKeys_nodup enum henum ids
  have hfilterall : (convKeys enum ids).filter
      (isFresh (get_conversation_members enum rM now s ids).2 nowB) =
      convKeys enum ids := by
    refine List.filter_eq_self.mpr ?_
    intro k hk2
    unfold convKeys at hk2
    rcases List.mem_map.mp hk2 with ⟨j, hj, hjk⟩
    subst hjk
    exact hfresh2 j hj
  have hres2 : (getCachedBatch (get_conversation_members enum rM now s ids).2 nowB
      (convKeys enum ids)).1 =
      ((enum ids).map (fun cid => nsConv ++ cid)).map
        (fun k => (k, dget (get_conversation_members enum rM now s ids).2.memory_cache k)) := by
    rw [getCachedBatch_results _ _ _ hkeysnd, hfilterall]
    rfl
  have hmiss2 : (getCachedBatch (get_conversation_members enum rM now s ids).2 nowB
      (convKeys enum ids)).2.1 = [] := by
    rw [getCachedBatch_misses]
    exact hstale2
  refine ⟨?_, ?_, ?_, ?_⟩
  · rw [hsecond]
    show format_conversation_results (getCachedBatch
      (get_conversation_members enum rM now s ids).2 nowB (convKeys enum ids)).1 = _
    rw [hres2, format_conv_map _ _ hndu hocc, hres1]
    apply List.map_congr_left
    intro i hi
    rw [hmc1']
    have hget := dget_map_of_mem (fun j : Ident => nsConv ++ j)
      (fun j => (Sum.inl (mVal rM j) : Val)) (enum ids) i (by
        have he : ((enum ids).map (fun j : Ident => nsConv ++ j)).Nodup :=
          hndu.map (fun a b h => List.append_cancel_left h)
        exact he) hi
    rw [hget]
  · rw [hsecond]
    show ((getCachedBatch (get_conversation_members enum rM now s ids).2 nowB
      (convKeys enum ids)).2.2).metrics.cache_hits = _
    rw [getCachedBatch_metrics]
    show (get_conversation_members enum rM now s ids).2.metrics.cache_hits +
      (getCachedBatch (get_conversation_members enum rM now s ids).2 nowB
        (convKeys enum ids)).1.length = _
    rw [hres2, List.length_map, List.length_map]
  · rw [hsecond]
    show ((getCachedBatch (get_conversation_members enum rM now s ids).2 nowB
      (convKeys enum ids)).2.2).metrics.cache_misses = _
    rw [getCachedBatch_metrics]
    show (get_conversation_members enum rM now s ids).2.metrics.cache_misses +
      (getCachedBatch (get_conversation_members enum rM now s ids).2 nowB
        (convKeys enum ids)).2.1.length = _
    rw [hmiss2]
    rfl
  · rw [hsecond]
    rfl

/-- After a fully successful first `get_users_info` call on an empty cache,
an immediate second call with the same identifiers (within TTL) is
answered entirely from the cache: same map for ANY remote oracle,
`cache_hits` up by the unique count, `cache_misses` and `api_calls`
unchanged. -/
theorem user_second_call (enum : List Ident → List Ident) (henum : isSetEnum enum)
    (s : ClientState) (now nowB : ℚ) (ids : List Ident)
    (rU rU2 : Ident → Option UserData)
    (hbs : 1 ≤ s.batch_size)
    (hmc0 : s.memory_cache = []) (hts0 : s.cache_timestamps = [])
    (hne : ids ≠ [])
    (hsucc : ∀ i ∈ ids, (rU i).isSome = true)
    (hnow : 0 < now) (hdel : nowB - now ≤ s.cache_ttl)
    (hocc : ∀ j ∈ enum ids, hasOccur nsUser j = false) :
    (get_users_info enum rU2 nowB (get_users_info enum rU now s ids).2 ids).1 =
      (get_users_info enum rU now s ids).1 ∧
    (get_users_info enum rU2 nowB
        (get_users_info enum rU now s ids).2 ids).2.metrics.cache_hits =
      (get_users_info enum rU now s ids).2.metrics.cache_hits + (enum ids).length ∧
    (get_users_info enum rU2 nowB
        (get_users_info enum rU now s ids).2 ids).2.metrics.cache_misses =
      (get_users_info enum rU now s ids).2.metrics.cache_misses ∧
    (get_users_info enum rU2 nowB
        (get_users_info enum rU now s ids).2 ids).2.metrics.api_calls =
      (get_users_info enum rU now s ids).2.metrics.api_calls := by
  have hndu : (enum ids).Nodup := (henum ids).1
  have hsucc' : ∀ i ∈ enum ids, (rU i).isSome = true :=
    fun i hi => hsucc i (((henum ids).2 i).mp hi)
  have hstale_all : userStale enum s now ids = enum ids := by
    unfold userStale
    refine List.filter_eq_self.mpr ?_
    intro a ha
    have hf : isFresh s now (nsUser ++ a) = false := by
      unfold isFresh
      rw [hts0]
      rfl
    rw [hf]
    rfl
  have hhit_none : userHit enum s now ids = [] := by
    unfold userHit
    refine List.filter_eq_nil_iff.mpr ?_
    intro a ha
    have hf : isFresh s now (nsUser ++ a) = false := by
      unfold isFresh
      rw [hts0]
      rfl
    simp [hf]
  have henumne : enum ids ≠ [] := by
    obtain ⟨x, hx⟩ := List.exists_mem_of_ne_nil ids hne
    exact List.ne_nil_of_mem (((henum ids).2 x).mpr hx)
  have hMne : userStale enum s now ids ≠ [] := by
    rw [hstale_all]
    exact henumne
  obtain ⟨hres1, hmc1, hts1, httl1, hbs1⟩ :=
    user_miss_full enum henum rU now s ids hbs hocc hMne
  rw [hstale_all, hhit_none] at hres1
  simp only [List.map_nil, List.nil_append] at hres1
  rw [hstale_all, hmc0] at hmc1
  rw [hstale_all, hts0] at hts1
  rw [uPairs_all_some rU _ hsucc'] at hres1 hmc1 hts1
  have hres1' : (get_users_info enum rU now s ids).1 =
      (enum ids).map (fun i => (i, (some (Sum.inr (uValD rU i)) : Option Val))) := by
    rw [hres1, List.map_map]
    rfl
  have hEmap : (((enum ids).map (fun i => (i, uValD rU i))).map
      (fun p => (nsUser ++ p.1, (Sum.inr p.2 : Val)))) =
      (enum ids).map (fun i => (nsUser ++ i, (Sum.inr (uValD rU i) : Val))) := by
    rw [List.map_map]
    rfl
  rw [hEmap] at hmc1 hts1
  have hEnd : (((enum ids).map (fun i => (nsUser ++ i, (Sum.inr (uValD rU i) : Val)))).map
      (fun p : Ident × Val => p.1)).Nodup := by
    have he : (((enum ids).map (fun i => (nsUser ++ i, (Sum.inr (uValD rU i) : Val)))).map
        (fun p : Ident × Val => p.1)) = (enum ids).map (fun i => nsUser ++ i) := by
      rw [List.map_map]
      rfl
    rw [he]
    exact hndu.map (fun a b h => List.append_cancel_left h)
  have hmc1' : (get_users_info enum rU now s ids).2.memory_cache =
      (enum ids).map (fun i => (nsUser ++ i, (Sum.inr (uValD rU i) : Val))) := by
    rw [hmc1, foldl_dset_append (fun p : Ident × Val => p.1) (fun p => p.2) _ []
      hEnd (fun x _ => rfl)]
    rw [List.nil_append, map_pair_eta]
  have hts1' : (get_users_info enum rU now s ids).2.cache_timestamps =
      (enum ids).map (fun i => (nsUser ++ i, now)) := by
    rw [hts1, foldl_dset_append (fun p : Ident × Val => p.1) (fun _ => now) _ []
      hEnd (fun x _ => rfl)]
    rw [List.nil_append, List.map_map]
    rfl
  have hfresh2 : ∀ j ∈ enum ids,
      isFresh (get_users_info enum rU now s ids).2 nowB (nsUser ++ j) = true := by
    intro j hj
    unfold isFresh
    rw [hts1']
    have hget := dget_map_of_mem (fun i : Ident => nsUser ++ i) (fun _ => (now : ℚ))
      (enum ids) j (by
        have he : ((enum ids).map (fun i : Ident => nsUser ++ i)).Nodup :=
          hndu.map (fun a b h => List.append_cancel_left h)
        exact he) hj
    rw [hget]
    show decide (now ≠ 0 ∧ nowB - now ≤
      (get_users_info enum rU now s ids).2.cache_ttl) = true
    rw [httl1]
    exact decide_eq_true ⟨ne_of_gt hnow, hdel⟩
  have hstale2 : (staleKeys (get_users_info enum rU now s ids).2 nowB
      (userKeys enum ids)) = [] := by
    unfold staleKeys userKeys
    refine List.filter_eq_nil_iff.mpr ?_
    intro k hk2
    rcases List.mem_map.mp hk2 with ⟨j, hj, hjk⟩
    subst hjk
    simp [hfresh2 j hj]
  have hsecond := user_hit_path enum rU2 nowB
    (get_users_info enum rU now s ids).2 ids hstale2
  have hkeysnd : (userKeys enum ids).Nodup := userKeys_nodup enum henum ids
  have hfilterall : (userKeys enum ids).filter
      (isFresh (get_users_info enum rU now s ids).2 nowB) = userKeys enum ids := by
    refine List.filter_eq_self.mpr ?_
    intro k hk2
    unfold userKeys at hk2
    rcases List.mem_map.mp hk2 with ⟨j, hj, hjk⟩
    subst hjk
    exact hfresh2 j hj
  have hres2 : (getCachedBatch (get_users_info enum rU now s ids).2 nowB
      (userKeys enum ids)).1 =
      ((enum ids).map (fun uid => nsUser ++ uid)).map
        (fun k => (k, dget (get_users_info enum rU now s ids).2.memory_cache k)) := by
    rw [getCachedBatch_results _ _ _ hkeysnd, hfilterall]
    rfl
  have hmiss2 : (getCachedBatch (get_users_info enum rU now s ids).2 nowB
      (userKeys enum ids)).2.1 = [] := by
    rw [getCachedBatch_misses]
    exact hstale2
  refine ⟨?_, ?_, ?_, ?_⟩
  · rw [hsecond]
    show format_user_results (getCachedBatch
      (get_users_info enum rU now s ids).2 nowB (userKeys enum ids)).1 = _
    rw [hres2, format_user_map _ _ hndu hocc, hres1']
    apply List.map_congr_left
    intro i hi
    rw [hmc1']
    have hget := dget_map_of_mem (fun j : Ident => nsUser ++ j)
      (fun j => (Sum.inr (uValD rU j) : Val)) (enum ids) i (by
        have he : ((enum ids).map (fun j : Ident => nsUser ++ j)).Nodup :=
          hndu.map (fun a b h => List.append_cancel_left h)
        exact he) hi
    rw [hget]
  · rw [hsecond]
    show ((getCachedBatch (get_users_info enum rU now s ids).2 nowB
      (userKeys enum ids)).2.2).metrics.cache_hits = _
    rw [getCachedBatch_metrics]
    show (get_users_info enum rU now s ids).2.metrics.cache_hits +
      (getCachedBatch (get_users_info enum rU now s ids).2 nowB
        (userKeys enum ids)).1.length = _
    rw [hres2, List.length_map, List.length_map]
  · rw [hsecond]
    show ((getCachedBatch (get_users_info enum rU now s ids).2 nowB
      (userKeys enum ids)).2.2).metrics.cache_misses = _
    rw [getCachedBatch_metrics]
    show (get_users_info enum rU now s ids).2.metrics.cache_misses +
      (getCachedBatch (get_users_info enum rU now s ids).2 nowB
        (userKeys enum ids)).2.1.length = _
    rw [hmiss2]
    rfl
  · rw [hsecond]
    rfl

/-- C4: (i) if every unique requested identifier is cached and unexpired,
a fetch is independent of the remote oracle (zero remote calls) and leaves
`api_calls` unchanged — for both operations; (ii) after a fully successful
first call on an empty cache, an immediate second call with the same
identifiers (within TTL) returns the same data, bumps `cache_hits` by the
number of unique identifiers, bumps `cache_misses` by zero, issues no
remote call (any oracle gives the same outcome), and leaves `api_calls`
unchanged. -/
theorem claim_C4_theorem (enum : List Ident → List Ident) (henum : isSetEnum enum)
    (s : ClientState) (now nowB : ℚ) (ids : List Ident)
    (rM rM2 : Ident → Option (List Ident)) (rU rU2 : Ident → Option UserData)
    (hbs : 1 ≤ s.batch_size) :
    (staleKeys s now (convKeys enum ids) = [] →
      get_conversation_members enum rM now s ids =
        get_conversation_members enum rM2 now s ids ∧
      (get_conversation_members enum rM now s ids).2.metrics.api_calls =
        s.metrics.api_calls) ∧
    (staleKeys s now (userKeys enum ids) = [] →
      get_users_info enum rU now s ids = get_users_info enum rU2 now s ids ∧
      (get_users_info enum rU now s ids).2.metrics.api_calls =
        s.metrics.api_calls) ∧
    (s.memory_cache = [] → s.cache_timestamps = [] → ids ≠ [] →
      (∀ i ∈ ids, (rM i).isSome = true) → 0 < now → nowB - now ≤ s.cache_ttl →
      (∀ j ∈ enum ids, hasOccur nsConv j = false) →
      (get_conversation_members enum rM2 nowB
          (get_conversation_members enum rM now s ids).2 ids).1 =
        (get_conversation_members enum rM now s ids).1 ∧
      (get_conversation_members enum rM2 nowB
          (get_conversation_members enum rM now s ids).2 ids).2.metrics.cache_hits =
        (get_conversation_members enum rM now s ids).2.metrics.cache_hits +
          (enum ids).length ∧
      (get_conversation_members enum rM2 nowB
          (get_conversation_members enum rM now s ids).2 ids).2.metrics.cache_misses =
        (get_conversation_members enum rM now s ids).2.metrics.cache_misses ∧
      (get_conversation_members enum rM2 nowB
          (get_conversation_members enum rM now s ids).2 ids).2.metrics.api_calls =
        (get_conversation_members enum rM now s ids).2.metrics.api_calls) ∧
    (s.memory_cache = [] → s.cache_timestamps = [] → ids ≠ [] →
      (∀ i ∈ ids, (rU i).isSome = true) → 0 < now → nowB - now ≤ s.cache_ttl →
      (∀ j ∈ enum ids, hasOccur nsUser j = false) →
      (get_users_info enum rU2 nowB (get_users_info enum rU now s ids).2 ids).1 =
        (get_users_info enum rU now s ids).1 ∧
      (get_users_info enum rU2 nowB
          (get_users_info enum rU now s ids).2 ids).2.metrics.cache_hits =
        (get_users_info enum rU now s ids).2.metrics.cache_hits + (enum ids).length ∧
      (get_users_info enum rU2 nowB
          (get_users_info enum rU now s ids).2 ids).2.metrics.cache_misses =
        (get_users_info enum rU now s ids).2.metrics.cache_misses ∧
      (get_users_info enum rU2 nowB
          (get_users_info enum rU now s ids).2 ids).2.metrics.api_calls =
        (get_users_info enum rU now s ids).2.metrics.api_calls) := by
  refine ⟨?_, ?_, ?_, ?_⟩
  · intro h
    constructor
    · rw [conv_hit_path enum rM now s ids h, conv_hit_path enum rM2 now s ids h]
    · rw [conv_hit_path enum rM now s ids h]
      rfl
  · intro h
    constructor
    · rw [user_hit_path enum rU now s ids h, user_hit_path enum rU2 now s ids h]
    · rw [user_hit_path enum rU now s ids h]
      rfl
  · intro hmc0 hts0 hne _ hnow hdel hocc
    exact conv_second_call enum henum s now nowB ids rM rM2 hbs hmc0 hts0 hne hnow
      hdel hocc
  · intro hmc0 hts0 hne hsucc hnow hdel hocc
    exact user_second_call enum henum s now nowB ids rU rU2 hbs hmc0 hts0 hne hsucc
      hnow hdel hocc

/-- A remote member oracle that always succeeds. -/
def remoteOkM : Ident → Option (List Ident) := fun cid => some [cid]

/-- A remote user oracle that always succeeds. -/
def remoteOkU : Ident → Option UserData := fun uid => some { raw := uid }

theorem claim_C4_witness :
    (get_conversation_members (fun l => l.dedup) remoteFail 2
        (get_conversation_members (fun l => l.dedup) remoteOkM 1 s50 [['a']]).2 [['a']]).1 =
      (get_conversation_members (fun l => l.dedup) remoteOkM 1 s50 [['a']]).1 :=
  ((claim_C4_theorem (fun l => l.dedup) isSetEnum_dedup s50 1 2 [['a']]
    remoteOkM remoteFail remoteOkU remoteUFail (by norm_num [s50])).2.2.1
    rfl rfl (by decide) (by decide) (by norm_num) (by norm_num [s50])
    (by decide)).1
